import Mathlib

/-!
# Verification of the Natural-Images training scripts

A shallow embedding, in Lean 4, of the two Python source files of the
repository (`prepare_data.py` and `main.py`), together with theorems that
settle the specification claims about them.

Conventions of the embedding:

* Python `int` values are modelled as `ℕ`/`ℤ`; Python `float` values are
  modelled as exact rationals (`ℚ`), with IEEE-754 binary64 rounding made
  explicit through `roundB64` at the points where the scripts perform
  float arithmetic (`int(n_files * train_ratio)` in `split_dataset`).
* Fallible Python code is modelled with `Except PyError`; the two runtime
  errors that matter here are `ZeroDivisionError` and `UnboundLocalError`.
* External collaborators (the PRNG of `random`, torch models, the loss
  criterion, the optimizer) are modelled as explicit pure functions that
  are parameters of the embedded operations, or as concrete deterministic
  stand-ins where only determinism matters.
-/

set_option maxRecDepth 100000

namespace NaturalImages

/-! ## Binary64 arithmetic model

`prepare_data.py` computes `n_train = int(n_files * train_ratio)` where
`train_ratio` is the Python float literal `0.7` (and `val_ratio` is
`0.15`).  Python floats are IEEE-754 binary64 values; we model a float as
the exact rational it denotes and make the rounding of every operation
explicit. -/

/-- Round a rational to an integer, to nearest with ties to even: the
rounding rule of IEEE-754 binary64 arithmetic. -/
def rne (q : ℚ) : ℤ :=
  let f := ⌊q⌋
  if q - f < 1 / 2 then f
  else if 1 / 2 < q - f then f + 1
  else if f % 2 = 0 then f else f + 1

/-- Fuel-driven helper for `floorLog2`, for arguments `1 ≤ x`: the number
of halvings needed to bring `x` below `2`. -/
def l2up : ℕ → ℚ → ℕ
  | 0, _ => 0
  | fuel + 1, x => if x < 2 then 0 else l2up fuel (x / 2) + 1

/-- Fuel-driven helper for `floorLog2`, for arguments `x < 1`: the number
of doublings needed to bring `x` up to at least `1`. -/
def l2down : ℕ → ℚ → ℕ
  | 0, _ => 0
  | fuel + 1, x => if 1 ≤ x then 0 else l2down fuel (x * 2) + 1

/-- `⌊log₂ x⌋` for a positive rational, by structural recursion (so that
the kernel can evaluate it on concrete inputs). -/
def floorLog2 (x : ℚ) : ℤ :=
  if 1 ≤ x then (l2up (x.num.natAbs + x.den) x : ℤ)
  else -(l2down (x.num.natAbs + x.den) x : ℤ)

/-- Round a nonnegative rational to the nearest binary64 value (round to
nearest, ties to even, 53-bit significand; exponent range is not modelled
since every quantity in the scripts is far from overflow/underflow). -/
def roundB64 (x : ℚ) : ℚ :=
  if 0 < x then
    ((rne (x * 2 ^ (52 - floorLog2 x)) : ℚ)) * 2 ^ (floorLog2 x - 52)
  else 0

/-- The exact rational value of the Python float literal `0.7`
(`(0.7).as_integer_ratio() == (3152519739159347, 2**52)`). -/
def float07 : ℚ := 3152519739159347 / 2 ^ 52

/-- The exact rational value of the Python float literal `0.15`
(`(0.15).as_integer_ratio() == (5404319552844595, 2**55)`). -/
def float015 : ℚ := 5404319552844595 / 2 ^ 55

/-- Python `int()` applied to a nonnegative float: truncation, which is
`floor` composed with `toNat`. -/
def pyInt (x : ℚ) : ℕ := (⌊x⌋).toNat

/-- Conversion of a Python `int` to a float, as performed implicitly by
`n_files * train_ratio`: the integer is rounded to the nearest binary64
value. -/
def floatOfNat (n : ℕ) : ℚ := roundB64 n

/-! ## `prepare_data.py`: `split_dataset` -/

/-- `f.lower().endswith(('.jpg', '.jpeg', '.png'))`, the image-file test
used both by `prepare_data.py` (line 57) and by the dataset indexer of
`main.py` (line 46). -/
def isImageFile (f : String) : Bool :=
  f.toLower.endsWith ".jpg" || f.toLower.endsWith ".jpeg" || f.toLower.endsWith ".png"

/-- `n_train = int(n_files * train_ratio)` (`prepare_data.py` line 70),
with the int-to-float conversion and the float multiplication rounded as
binary64. -/
def n_train (n_files : ℕ) ( train_ratio : ℚ) : ℕ :=
  pyInt (roundB64 (floatOfNat n_files * train_ratio))

/-- `n_val = int(n_files * val_ratio)` (`prepare_data.py` line 71). -/
def n_val (n_files : ℕ) ( val_ratio : ℚ) : ℕ :=
  pyInt (roundB64 (floatOfNat n_files * val_ratio))

/-- The slicing step of `split_dataset` (`prepare_data.py` lines 69-76):
from the (already shuffled) list of image files of one class, produce
`(train_files, val_files, test_files)` as the Python slices
`image_files[:n_train]`, `image_files[n_train:n_train+n_val]`,
`image_files[n_train+n_val:]`. -/
def splitClass (image_files : List String) ( train_ratio val_ratio : ℚ) :
    List String × List String × List String :=
  let n_files := image_files.length
  let nt := n_train n_files train_ratio
  let nv := n_val n_files val_ratio
  (image_files.take nt,
   (image_files.take (nt + nv)).drop nt,
   image_files.drop (nt + nv))

unseal Rat.mul Rat.inv Rat.add Rat.sub in
example : n_train 10 float07 = 7 ∧ n_val 10 float015 = 1 := by decide

unseal Rat.mul Rat.inv Rat.add Rat.sub in
example : n_train 90 float07 = 62 ∧ n_val 90 float015 = 13 := by decide

/-- The three slices of any list under any cut points are pairwise
disjoint when the list has no duplicates, and concatenate back to it. -/
theorem slices_partition {α : Type} (l : List α) (a b : ℕ) (hab : a ≤ b) :
    l.take a ++ (l.take b).drop a ++ l.drop b = l ∧
    (l.Nodup →
      (l.take a).Disjoint ((l.take b).drop a) ∧
      (l.take a).Disjoint (l.drop b) ∧
      ((l.take b).drop a).Disjoint (l.drop b)) := by
  constructor
  · have h1 : l.take a = (l.take b).take a := by
      rw [List.take_take, Nat.min_eq_left hab]
    calc l.take a ++ (l.take b).drop a ++ l.drop b
        = ((l.take b).take a ++ (l.take b).drop a) ++ l.drop b := by rw [← h1]
      _ = l.take b ++ l.drop b := by rw [List.take_append_drop]
      _ = l := List.take_append_drop b l
  · intro hnd
    have hvd : (l.take b).drop a = (l.drop a).take (b - a) := List.drop_take ..
    refine ⟨?_, ?_, ?_⟩
    · intro x hx hx'
      rw [hvd] at hx'
      exact List.disjoint_take_drop hnd (Nat.le_refl a) hx (List.take_subset _ _ hx')
    · exact fun x hx hx' =>
        List.disjoint_take_drop hnd hab hx hx'
    · intro x hx hx'
      rw [hvd] at hx
      have h2 : l.drop b = (l.drop a).drop (b - a) := by
        rw [List.drop_drop, Nat.add_sub_cancel' hab]
      rw [h2] at hx'
      exact List.disjoint_take_drop (hnd.sublist (List.drop_sublist a l))
        (Nat.le_refl (b - a)) hx hx'

/-- `rne` rounds to an integer at distance at most `1/2`. -/
theorem rne_abs_le (q : ℚ) : |(rne q : ℚ) - q| ≤ 1 / 2 := by
  have h0 : (⌊q⌋ : ℚ) ≤ q := Int.floor_le q
  have h1 : q < ⌊q⌋ + 1 := Int.lt_floor_add_one q
  simp only [rne]
  split_ifs with ha hb hc <;>
    (rw [abs_le]; constructor <;> (push_cast; linarith))

/-- `rne q` is at least as close to `q` as any other integer. -/
theorem rne_nearest (q : ℚ) (k : ℤ) : |(rne q : ℚ) - q| ≤ |(k : ℚ) - q| := by
  have h0 : (⌊q⌋ : ℚ) ≤ q := Int.floor_le q
  have h1 : q < ⌊q⌋ + 1 := Int.lt_floor_add_one q
  have hk : k ≤ ⌊q⌋ ∨ ⌊q⌋ + 1 ≤ k := by omega
  have hk' : (k : ℚ) ≤ ⌊q⌋ ∨ (⌊q⌋ : ℚ) + 1 ≤ k := by
    rcases hk with h | h
    · exact Or.inl (by exact_mod_cast h)
    · exact Or.inr (by exact_mod_cast h)
  have habs1 : q - k ≤ |(k : ℚ) - q| := by
    rw [abs_sub_comm]; exact le_abs_self _
  have habs2 : (k : ℚ) - q ≤ |(k : ℚ) - q| := le_abs_self _
  simp only [rne]
  split_ifs with ha hb hc <;>
    (rw [abs_le]; rcases hk' with h | h <;> constructor <;> (push_cast; linarith))

/-- Specification of `l2up`: with enough fuel it computes `⌊log₂ x⌋`
for `1 ≤ x`. -/
theorem l2up_spec (fuel : ℕ) (x : ℚ) (h1 : 1 ≤ x) (h2 : x < 2 ^ fuel) :
    (2 : ℚ) ^ l2up fuel x ≤ x ∧ x < 2 ^ (l2up fuel x + 1) := by
  induction fuel generalizing x with
  | zero => simp only [pow_zero] at h2; linarith
  | succ fuel ih =>
    show (2 : ℚ) ^ (if x < 2 then 0 else l2up fuel (x / 2) + 1) ≤ x ∧
      x < 2 ^ ((if x < 2 then 0 else l2up fuel (x / 2) + 1) + 1)
    split_ifs with hx
    · simpa using ⟨h1, by simpa using hx⟩
    · push_neg at hx
      have hrec := ih (x / 2) (by linarith) (by rw [pow_succ] at h2; linarith)
      constructor
      · rw [pow_succ]
        have := hrec.1
        linarith
      · rw [pow_succ]
        have := hrec.2
        linarith

/-- Specification of `l2down`: with enough fuel it computes `⌊log₂ x⌋`
for `0 < x < 2`. -/
theorem l2down_spec (fuel : ℕ) (x : ℚ) (h0 : 0 < x) (h2 : x < 2)
    (hf : 1 ≤ x * 2 ^ fuel) :
    (2 : ℚ) ^ (-(l2down fuel x : ℤ)) ≤ x ∧
      x < 2 ^ (-(l2down fuel x : ℤ) + 1) := by
  induction fuel generalizing x with
  | zero =>
    simp only [pow_zero, mul_one] at hf
    simp only [l2down, Nat.cast_zero, neg_zero, zpow_zero, zero_add, zpow_one]
    exact ⟨hf, h2⟩
  | succ fuel ih =>
    show (2 : ℚ) ^ (-((if 1 ≤ x then 0 else l2down fuel (x * 2) + 1 : ℕ) : ℤ)) ≤ x ∧
      x < 2 ^ (-((if 1 ≤ x then 0 else l2down fuel (x * 2) + 1 : ℕ) : ℤ) + 1)
    split_ifs with hx
    · simp only [Nat.cast_zero, neg_zero, zpow_zero, zero_add, zpow_one]
      exact ⟨hx, h2⟩
    · push_neg at hx
      have hrec := ih (x * 2) (by linarith) (by linarith)
        (by rw [pow_succ] at hf; linarith)
      set k := l2down fuel (x * 2) with hk
      have e1 : (2 : ℚ) ^ (-((k + 1 : ℕ) : ℤ)) * 2 = 2 ^ (-(k : ℤ)) := by
        rw [← zpow_add_one₀ (two_ne_zero)]
        congr 1
        push_cast
        ring
      have e2 : (2 : ℚ) ^ (-((k + 1 : ℕ) : ℤ) + 1) * 2 = 2 ^ (-(k : ℤ) + 1) := by
        rw [← zpow_add_one₀ (two_ne_zero)]
        congr 1
        push_cast
        ring
      constructor
      · have := hrec.1
        nlinarith [e1]
      · have := hrec.2
        nlinarith [e2]

/-- Specification of `floorLog2`: for positive `x` it returns the `e`
with `2 ^ e ≤ x < 2 ^ (e + 1)`. -/
theorem floorLog2_spec (x : ℚ) (hx : 0 < x) :
    (2 : ℚ) ^ floorLog2 x ≤ x ∧ x < 2 ^ (floorLog2 x + 1) := by
  have hden : (1 : ℚ) ≤ (x.den : ℚ) := by
    have := x.den_pos
    exact_mod_cast this
  simp only [floorLog2]
  split_ifs with h1
  · -- 1 ≤ x : the numerator bounds x above
    have hnum : (0 : ℤ) < x.num := Rat.num_pos.mpr hx
    have hxle : x ≤ (x.num.natAbs : ℚ) := by
      have hq : x = (x.num : ℚ) / (x.den : ℚ) := (Rat.num_div_den x).symm
      have hcast : (x.num : ℚ) = (x.num.natAbs : ℚ) := by
        rw [Int.cast_natAbs, abs_of_pos (by exact_mod_cast hnum)]
      calc x = (x.num : ℚ) / (x.den : ℚ) := hq
        _ ≤ (x.num : ℚ) := div_le_self (by exact_mod_cast le_of_lt hnum) hden
        _ = (x.num.natAbs : ℚ) := hcast
    have hpow : ((x.num.natAbs : ℚ)) < 2 ^ x.num.natAbs := by
      exact_mod_cast Nat.lt_two_pow x.num.natAbs
    have hfuel : x < 2 ^ (x.num.natAbs + x.den) := by
      have h2 : (2 : ℚ) ^ x.num.natAbs ≤ 2 ^ (x.num.natAbs + x.den) :=
        pow_le_pow_right₀ one_le_two (Nat.le_add_right _ _)
      linarith
    have hs := l2up_spec (x.num.natAbs + x.den) x h1 hfuel
    constructor
    · rw [zpow_natCast]; exact hs.1
    · rw [show ((l2up (x.num.natAbs + x.den) x : ℤ) + 1) =
          ((l2up (x.num.natAbs + x.den) x + 1 : ℕ) : ℤ) by push_cast; ring,
        zpow_natCast]
      exact hs.2
  · -- x < 1 : the denominator bounds x below
    push_neg at h1
    have hnum : (0 : ℤ) < x.num := Rat.num_pos.mpr hx
    have hxge : (1 : ℚ) / (x.den : ℚ) ≤ x := by
      have hq : x = (x.num : ℚ) / (x.den : ℚ) := (Rat.num_div_den x).symm
      have hd0 : (0 : ℚ) < (x.den : ℚ) := by linarith
      calc (1 : ℚ) / (x.den : ℚ) ≤ (x.num : ℚ) / (x.den : ℚ) := by
            gcongr
            exact_mod_cast hnum
        _ = x := hq.symm
    have hpden : (x.den : ℚ) ≤ 2 ^ x.den := by
      exact_mod_cast Nat.le_of_lt (Nat.lt_two_pow x.den)
    have hfuel : 1 ≤ x * 2 ^ (x.num.natAbs + x.den) := by
      have h2 : (2 : ℚ) ^ x.den ≤ 2 ^ (x.num.natAbs + x.den) :=
        pow_le_pow_right₀ one_le_two (Nat.le_add_left _ _)
      have hd0 : (0 : ℚ) < (x.den : ℚ) := by linarith
      have : (1 : ℚ) = (1 / (x.den : ℚ)) * (x.den : ℚ) := by
        field_simp
      calc (1 : ℚ) = (1 / (x.den : ℚ)) * (x.den : ℚ) := this
        _ ≤ x * (2 ^ x.den) := by
            apply mul_le_mul hxge hpden (by linarith) (le_of_lt hx)
        _ ≤ x * 2 ^ (x.num.natAbs + x.den) := by
            apply mul_le_mul_of_nonneg_left h2 (le_of_lt hx)
    exact l2down_spec (x.num.natAbs + x.den) x hx (by linarith) hfuel

/-- For positive arguments `roundB64` unfolds to the scaled `rne`. -/
theorem roundB64_pos_def (x : ℚ) (hx : 0 < x) :
    roundB64 x =
      ((rne (x * 2 ^ (52 - floorLog2 x)) : ℚ)) * 2 ^ (floorLog2 x - 52) := by
  simp only [roundB64, if_pos hx]

/-- The scale factor and its inverse cancel. -/
theorem scale_cancel (e : ℤ) (x : ℚ) :
    x * 2 ^ (52 - e) * 2 ^ (e - 52) = x := by
  rw [mul_assoc, ← zpow_add₀ (two_ne_zero : (2 : ℚ) ≠ 0)]
  norm_num

/-- Arithmetic helper: half a grid step below the exponent. -/
theorem half_step (e : ℤ) :
    (1 / 2 : ℚ) * 2 ^ (e - 52) = 2 ^ e / 2 ^ (53 : ℕ) := by
  have h53 : ((2 : ℚ) ^ (53 : ℕ)) = 2 ^ ((53 : ℕ) : ℤ) := (zpow_natCast 2 53).symm
  have hne : ((2 : ℚ) ^ (53 : ℕ)) ≠ 0 := by positivity
  rw [eq_div_iff hne, mul_assoc, h53,
    ← zpow_add₀ (two_ne_zero : (2 : ℚ) ≠ 0),
    show (e - 52 + ((53 : ℕ) : ℤ)) = e + 1 by push_cast; ring,
    zpow_add_one₀ (two_ne_zero : (2 : ℚ) ≠ 0)]
  ring

/-- Relative error of binary64 rounding: for positive `x` the rounded
value is within `x / 2 ^ 53` of `x`. -/
theorem roundB64_err (x : ℚ) (hx : 0 < x) :
    |roundB64 x - x| ≤ x / 2 ^ 53 := by
  set e := floorLog2 x with he
  have hsp : (0 : ℚ) < 2 ^ (e - 52) := zpow_pos (by norm_num) _
  have hq := rne_abs_le (x * 2 ^ (52 - e))
  have hdiff : roundB64 x - x =
      ((rne (x * 2 ^ (52 - e)) : ℚ) - x * 2 ^ (52 - e)) * 2 ^ (e - 52) := by
    rw [roundB64_pos_def x hx, ← he, sub_mul, scale_cancel]
  have hlog := (floorLog2_spec x hx).1
  rw [hdiff, abs_mul, abs_of_pos hsp]
  calc |(rne (x * 2 ^ (52 - e)) : ℚ) - x * 2 ^ (52 - e)| * 2 ^ (e - 52)
      ≤ (1 / 2) * 2 ^ (e - 52) := by
        apply mul_le_mul_of_nonneg_right hq (le_of_lt hsp)
    _ = 2 ^ e / 2 ^ 53 := half_step e
    _ ≤ x / 2 ^ 53 := by
        apply div_le_div_of_nonneg_right ?_ (by norm_num)
        exact hlog

/-- `roundB64 x` is at least as close to `x` as any integer multiple of
the grid step `2 ^ (floorLog2 x - 52)`. -/
theorem roundB64_nearest (x : ℚ) (hx : 0 < x) (k : ℤ) :
    |roundB64 x - x| ≤ |(k : ℚ) * 2 ^ (floorLog2 x - 52) - x| := by
  set e := floorLog2 x with he
  have hsp : (0 : ℚ) < 2 ^ (e - 52) := zpow_pos (by norm_num) _
  have hq := rne_nearest (x * 2 ^ (52 - e)) k
  have hdiff : roundB64 x - x =
      ((rne (x * 2 ^ (52 - e)) : ℚ) - x * 2 ^ (52 - e)) * 2 ^ (e - 52) := by
    rw [roundB64_pos_def x hx, ← he, sub_mul, scale_cancel]
  have hdiff2 : (k : ℚ) * 2 ^ (e - 52) - x =
      ((k : ℚ) - x * 2 ^ (52 - e)) * 2 ^ (e - 52) := by
    rw [sub_mul, scale_cancel]
  rw [hdiff, hdiff2, abs_mul, abs_mul, abs_of_pos hsp]
  exact mul_le_mul_of_nonneg_right hq (le_of_lt hsp)

/-- Binary64 rounding is exact on naturals up to `2 ^ 52` (so the
int-to-float conversion in `n_files * train_ratio` is exact for every
realistic file count). -/
theorem roundB64_natCast (n : ℕ) (hn : n ≤ 2 ^ 52) :
    roundB64 (n : ℚ) = n := by
  rcases Nat.eq_zero_or_pos n with h0 | h0
  · subst h0
    simp [roundB64]
  have hx : (0 : ℚ) < n := by exact_mod_cast h0
  have h1 : (1 : ℚ) ≤ (n : ℚ) := by exact_mod_cast h0
  set e := floorLog2 (n : ℚ) with he
  have hspec := floorLog2_spec (n : ℚ) hx
  have he0 : 0 ≤ e := by
    by_contra hneg
    push_neg at hneg
    have : (2 : ℚ) ^ (e + 1) ≤ 2 ^ (0 : ℤ) := by
      apply zpow_le_zpow_right₀ one_le_two
      omega
    rw [zpow_zero] at this
    linarith [hspec.2]
  have he52 : e ≤ 52 := by
    by_contra hgt
    push_neg at hgt
    have h53 : (53 : ℤ) ≤ e := by omega
    have : (2 : ℚ) ^ (53 : ℤ) ≤ 2 ^ e := zpow_le_zpow_right₀ one_le_two h53
    have hn' : (n : ℚ) ≤ (2 : ℚ) ^ (52 : ℤ) := by
      have h252 : ((2 : ℚ) ^ (52 : ℤ)) = ((2 ^ 52 : ℕ) : ℚ) := by
        rw [show (52 : ℤ) = ((52 : ℕ) : ℤ) from rfl, zpow_natCast]
        push_cast
        ring
      rw [h252]
      exact_mod_cast hn
    have h2 : (2 : ℚ) ^ (53 : ℤ) ≤ (n : ℚ) := le_trans this hspec.1
    have h3 : (2 : ℚ) ^ (52 : ℤ) < 2 ^ (53 : ℤ) := by
      apply zpow_lt_zpow_right₀ one_lt_two
      omega
    linarith
  -- the scaled value is a natural number, so rne is exact
  have hknat : ∃ k : ℕ, ((52 : ℤ) - e) = (k : ℤ) := ⟨(52 - e).toNat, by omega⟩
  obtain ⟨k, hk⟩ := hknat
  have hqint : (n : ℚ) * 2 ^ ((52 : ℤ) - e) = ((n * 2 ^ k : ℕ) : ℚ) := by
    rw [hk, zpow_natCast]
    push_cast
    ring
  have hrne : rne ((n : ℚ) * 2 ^ ((52 : ℤ) - e)) = ((n * 2 ^ k : ℕ) : ℤ) := by
    rw [hqint]
    have : ((n * 2 ^ k : ℕ) : ℚ) = (((n * 2 ^ k : ℕ) : ℤ) : ℚ) := by push_cast; ring
    rw [this]
    simp only [rne, Int.floor_intCast]
    rw [if_pos]
    rw [sub_self]
    norm_num
  rw [roundB64_pos_def _ hx, ← he, hrne]
  rw [show (((n * 2 ^ k : ℕ) : ℤ) : ℚ) = (n : ℚ) * 2 ^ ((52 : ℤ) - e) by
    rw [hqint]; push_cast; ring]
  rw [scale_cancel]

/-- The grid step in terms of the exponent. -/
theorem step_div (e : ℤ) : (2 : ℚ) ^ (e - 52) = 2 ^ e / 2 ^ (52 : ℕ) := by
  have h52 : ((2 : ℚ) ^ (52 : ℕ)) = 2 ^ ((52 : ℕ) : ℤ) := (zpow_natCast 2 52).symm
  have hne : ((2 : ℚ) ^ (52 : ℕ)) ≠ 0 := by positivity
  rw [eq_div_iff hne, h52, ← zpow_add₀ (two_ne_zero : (2 : ℚ) ≠ 0),
    show (e - 52 + ((52 : ℕ) : ℤ)) = e by push_cast; ring]

/-- The exact rational decomposition of the float `0.15`. -/
theorem float015_eq : float015 = 3 / 20 - 1 / (5 * 2 ^ 55) := by
  norm_num [float015]

/-- The exact rational decomposition of the float `0.7`. -/
theorem float07_eq : float07 = 7 / 10 - 1 / (5 * 2 ^ 52) := by
  norm_num [float07]

/-- The validation count of `split_dataset` is exactly `⌊0.15·n⌋` for
every class size that can occur in practice: the float error of `0.15`
never crosses an integer boundary. -/
theorem n_val_eq (n : ℕ) (hn : n ≤ 2 ^ 48) : n_val n float015 = 3 * n / 20 := by
  rcases Nat.eq_zero_or_pos n with h0 | h0
  · subst h0
    norm_num [n_val, floatOfNat, roundB64, pyInt]
  have hfl : floatOfNat n = n :=
    roundB64_natCast n (le_trans hn (by norm_num))
  have hnQ : (n : ℚ) ≤ 2 ^ 48 := by exact_mod_cast hn
  have hn1 : (1 : ℚ) ≤ (n : ℚ) := by exact_mod_cast h0
  set x : ℚ := (n : ℚ) * float015 with hxdef
  have hx0 : 0 < x := by
    apply mul_pos (by linarith)
    norm_num [float015]
  set m : ℕ := 3 * n / 20 with hm
  set j : ℕ := 3 * n % 20 with hj
  have hmj : 20 * m + j = 3 * n := Nat.div_add_mod (3 * n) 20
  clear_value m j
  have hmjQ : 20 * (m : ℚ) + (j : ℚ) = 3 * (n : ℚ) := by exact_mod_cast hmj
  have hjlt : j < 20 := by omega
  have hjQ : (j : ℚ) ≤ 19 := by exact_mod_cast Nat.lt_succ_iff.mp hjlt
  have hxval : x = (m : ℚ) + (j : ℚ) / 20 - (n : ℚ) / (5 * 2 ^ 55) := by
    rw [hxdef, float015_eq]
    field_simp
    linarith
  have herr := roundB64_err x hx0
  have hlo : x - x / 2 ^ 53 ≤ roundB64 x := by
    have := (abs_le.mp herr).1
    linarith
  have hhi : roundB64 x ≤ x + x / 2 ^ 53 := by
    have := (abs_le.mp herr).2
    linarith
  have hxub : x ≤ 3 * (n : ℚ) / 20 := by
    have hd : (0 : ℚ) ≤ (n : ℚ) / (5 * 2 ^ 55) := by positivity
    linarith
  have hx253 : x / 2 ^ 53 ≤ 3 / 640 := by
    have h1 : x ≤ 3 * (2 ^ 48 : ℚ) / 20 := by linarith
    have h2 : (3 * (2 ^ 48 : ℚ) / 20) / 2 ^ 53 = 3 / 640 := by norm_num
    calc x / 2 ^ 53 ≤ (3 * (2 ^ 48 : ℚ) / 20) / 2 ^ 53 := by
          apply div_le_div_of_nonneg_right h1 (by norm_num)
      _ = 3 / 640 := h2
  have hnd : (n : ℚ) / (5 * 2 ^ 55) ≤ 1 / 640 := by
    have : (2 ^ 48 : ℚ) / (5 * 2 ^ 55) = 1 / 640 := by norm_num
    calc (n : ℚ) / (5 * 2 ^ 55) ≤ (2 ^ 48 : ℚ) / (5 * 2 ^ 55) := by
          apply div_le_div_of_nonneg_right hnQ (by norm_num)
      _ = 1 / 640 := this
  rcases Nat.eq_zero_or_pos j with hj0 | hj1
  · -- 3n is a multiple of 20: the float product rounds back to exactly m
    have hxm : x = (m : ℚ) - (n : ℚ) / (5 * 2 ^ 55) := by
      rw [hxval, hj0]
      push_cast
      ring
    have hm1 : 1 ≤ m := by omega
    set e := floorLog2 x with he
    have hspec := floorLog2_spec x hx0
    have he52 : e ≤ 52 := by
      by_contra hgt
      push_neg at hgt
      have h1 : (2 : ℚ) ^ (52 : ℤ) ≤ 2 ^ e := zpow_le_zpow_right₀ one_le_two (by omega)
      have h2 : ((2 : ℚ) ^ (52 : ℤ)) = 2 ^ (52 : ℕ) := by
        rw [show (52 : ℤ) = ((52 : ℕ) : ℤ) from rfl, zpow_natCast]
      have h3 : (2 : ℚ) ^ (52 : ℕ) ≤ x := by
        rw [← h2]
        exact le_trans h1 hspec.1
      have h4 : x ≤ 3 * (2 ^ 48 : ℚ) / 20 := by linarith
      norm_num at h3 h4
      linarith
    set k : ℤ := (m : ℤ) * 2 ^ (52 - e).toNat with hk
    have hkQ : (k : ℚ) = (m : ℚ) * 2 ^ ((52 : ℤ) - e) := by
      have hexp : (((52 - e).toNat : ℕ) : ℤ) = 52 - e :=
        Int.toNat_of_nonneg (by linarith)
      rw [hk]
      push_cast
      rw [← zpow_natCast (2 : ℚ) (52 - e).toNat, hexp]
    have hgrid : (k : ℚ) * 2 ^ (e - 52) = (m : ℚ) := by
      rw [hkQ]
      exact scale_cancel e (m : ℚ)
    have hnear := roundB64_nearest x hx0 k
    rw [← he, hgrid] at hnear
    have habsmx : |(m : ℚ) - x| = (n : ℚ) / (5 * 2 ^ 55) := by
      have hmx : (m : ℚ) - x = (n : ℚ) / (5 * 2 ^ 55) := by
        rw [hxm]; ring
      rw [hmx, abs_of_nonneg (by positivity)]
    have htri : |roundB64 x - (m : ℚ)| ≤ 2 * ((n : ℚ) / (5 * 2 ^ 55)) := by
      have h1 := abs_sub_le (roundB64 x) x (m : ℚ)
      have h2 : |x - (m : ℚ)| = (n : ℚ) / (5 * 2 ^ 55) := by
        rw [abs_sub_comm]
        exact habsmx
      rw [habsmx] at hnear
      linarith
    have hsp_lb : x / 2 ^ 53 < 2 ^ (e - 52) := by
      have h1 : x < 2 ^ (e + 1) := hspec.2
      have h2 : (2 : ℚ) ^ (e + 1) = 2 ^ e * 2 := by
        rw [zpow_add_one₀ (two_ne_zero : (2 : ℚ) ≠ 0)]
      have h3 : x / 2 < 2 ^ e := by linarith
      rw [step_div, div_lt_div_iff (by norm_num : (0:ℚ) < (2:ℚ) ^ 53)
        (by positivity : (0:ℚ) < (2:ℚ) ^ (52 : ℕ))]
      have h5 : x * 2 ^ (52 : ℕ) = (x / 2) * 2 ^ (53 : ℕ) := by
        norm_num
        ring
      rw [h5]
      apply mul_lt_mul_of_pos_right h3 (by positivity)
    have h2d : 2 * ((n : ℚ) / (5 * 2 ^ 55)) < x / 2 ^ 53 := by
      have hm3 : 3 * (n : ℚ) = 20 * (m : ℚ) := by
        rw [← hmjQ, hj0]
        push_cast
        ring
      have hxeq : x = 3 * (n : ℚ) / 20 - (n : ℚ) / (5 * 2 ^ 55) := by
        rw [hxm]
        linarith
      have hrw : 2 * ((n : ℚ) / (5 * 2 ^ 55)) = (2 * (n : ℚ)) / (5 * 2 ^ 55) := by
        ring
      rw [hrw, hxeq, div_lt_div_iff (by norm_num : (0:ℚ) < 5 * 2 ^ 55)
        (by norm_num : (0:ℚ) < (2:ℚ) ^ 53)]
      have hexp : (3 * (n : ℚ) / 20 - (n : ℚ) / (5 * 2 ^ 55)) * (5 * 2 ^ 55) =
          3 * (n : ℚ) * 2 ^ 53 - (n : ℚ) := by
        ring
      rw [hexp]
      norm_num
      linarith
    have hclose : |roundB64 x - (m : ℚ)| < 2 ^ (e - 52) := by linarith
    set r : ℤ := rne (x * 2 ^ ((52 : ℤ) - e)) with hr
    have hrd : roundB64 x = (r : ℚ) * 2 ^ (e - 52) := by
      rw [roundB64_pos_def x hx0]
    have hsp : (0 : ℚ) < 2 ^ (e - 52) := zpow_pos (by norm_num) _
    have hrk : r = k := by
      by_contra hrne
      have h1 : 1 ≤ |r - k| := Int.one_le_abs (sub_ne_zero.mpr hrne)
      have h1Q : (1 : ℚ) ≤ |(r : ℚ) - (k : ℚ)| := by exact_mod_cast h1
      have h2 : roundB64 x - (m : ℚ) = ((r : ℚ) - (k : ℚ)) * 2 ^ (e - 52) := by
        rw [hrd, ← hgrid]
        ring
      have h3 : |roundB64 x - (m : ℚ)| = |(r : ℚ) - (k : ℚ)| * 2 ^ (e - 52) := by
        rw [h2, abs_mul, abs_of_pos hsp]
      have h4 : 2 ^ (e - 52) ≤ |(r : ℚ) - (k : ℚ)| * 2 ^ (e - 52) := by
        calc (2 : ℚ) ^ (e - 52) = 1 * 2 ^ (e - 52) := by ring
          _ ≤ |(r : ℚ) - (k : ℚ)| * 2 ^ (e - 52) :=
              mul_le_mul_of_nonneg_right h1Q (le_of_lt hsp)
      rw [h3] at hclose
      linarith
    have hfinal : roundB64 x = (m : ℚ) := by
      rw [hrd, hrk]
      exact hgrid
    simp only [n_val]
    rw [hfl, ← hxdef, hfinal, pyInt, Int.floor_natCast, Int.toNat_natCast]
  · -- 3n is not a multiple of 20: the error stays within the open gap
    have hj1Q : (1 : ℚ) ≤ (j : ℚ) := by exact_mod_cast hj1
    have hfloor : ⌊roundB64 x⌋ = (m : ℤ) := by
      rw [Int.floor_eq_iff]
      constructor
      · push_cast
        have hd : (0 : ℚ) ≤ (n : ℚ) / (5 * 2 ^ 55) := by positivity
        linarith
      · push_cast
        linarith
    simp only [n_val]
    rw [hfl, ← hxdef, pyInt, hfloor, Int.toNat_natCast]

/-- The train count of `split_dataset` is `⌊0.7·n⌋` or `⌊0.7·n⌋ - 1`:
when `10 ∣ n` the float product `n * 0.7` can round to just below the
exact integer (it does, e.g., at `n = 90`). -/
theorem n_train_cases (n : ℕ) (hn : n ≤ 2 ^ 48) :
    n_train n float07 = 7 * n / 10 ∨ n_train n float07 + 1 = 7 * n / 10 := by
  rcases Nat.eq_zero_or_pos n with h0 | h0
  · subst h0
    left
    norm_num [n_train, floatOfNat, roundB64, pyInt]
  have hfl : floatOfNat n = n :=
    roundB64_natCast n (le_trans hn (by norm_num))
  have hnQ : (n : ℚ) ≤ 2 ^ 48 := by exact_mod_cast hn
  have hn1 : (1 : ℚ) ≤ (n : ℚ) := by exact_mod_cast h0
  set x : ℚ := (n : ℚ) * float07 with hxdef
  have hx0 : 0 < x := by
    apply mul_pos (by linarith)
    norm_num [float07]
  set m : ℕ := 7 * n / 10 with hm
  set j : ℕ := 7 * n % 10 with hj
  have hmj : 10 * m + j = 7 * n := Nat.div_add_mod (7 * n) 10
  clear_value m j
  have hmjQ : 10 * (m : ℚ) + (j : ℚ) = 7 * (n : ℚ) := by exact_mod_cast hmj
  have hjlt : j < 10 := by omega
  have hjQ : (j : ℚ) ≤ 9 := by exact_mod_cast Nat.lt_succ_iff.mp hjlt
  have hxval : x = (m : ℚ) + (j : ℚ) / 10 - (n : ℚ) / (5 * 2 ^ 52) := by
    rw [hxdef, float07_eq]
    field_simp
    linarith
  have herr := roundB64_err x hx0
  have hlo : x - x / 2 ^ 53 ≤ roundB64 x := by
    have := (abs_le.mp herr).1
    linarith
  have hhi : roundB64 x ≤ x + x / 2 ^ 53 := by
    have := (abs_le.mp herr).2
    linarith
  have hxub : x ≤ 7 * (n : ℚ) / 10 := by
    have hd : (0 : ℚ) ≤ (n : ℚ) / (5 * 2 ^ 52) := by positivity
    linarith
  have hx253 : x / 2 ^ 53 ≤ 7 / 320 := by
    have h1 : x ≤ 7 * (2 ^ 48 : ℚ) / 10 := by linarith
    have h2 : (7 * (2 ^ 48 : ℚ) / 10) / 2 ^ 53 = 7 / 320 := by norm_num
    calc x / 2 ^ 53 ≤ (7 * (2 ^ 48 : ℚ) / 10) / 2 ^ 53 := by
          apply div_le_div_of_nonneg_right h1 (by norm_num)
      _ = 7 / 320 := h2
  have hnd : (n : ℚ) / (5 * 2 ^ 52) ≤ 4 / 320 := by
    have heq : (2 ^ 48 : ℚ) / (5 * 2 ^ 52) = 4 / 320 := by norm_num
    calc (n : ℚ) / (5 * 2 ^ 52) ≤ (2 ^ 48 : ℚ) / (5 * 2 ^ 52) := by
          apply div_le_div_of_nonneg_right hnQ (by norm_num)
      _ = 4 / 320 := heq
  have hd0 : (0 : ℚ) ≤ (n : ℚ) / (5 * 2 ^ 52) := by positivity
  simp only [n_train]
  rw [hfl, ← hxdef, pyInt]
  rcases Nat.eq_zero_or_pos j with hj0 | hj1
  · -- 7n multiple of 10: the rounded product may fall on either side of m
    have hup : ⌊roundB64 x⌋ ≤ (m : ℤ) := by
      have h1 : roundB64 x < (m : ℚ) + 1 := by
        have : (j : ℚ) = 0 := by exact_mod_cast hj0
        linarith
      have h2 : ⌊roundB64 x⌋ < (m : ℤ) + 1 := by
        rw [Int.floor_lt]
        push_cast
        linarith
      omega
    have hdown : ((m : ℤ) - 1) ≤ ⌊roundB64 x⌋ := by
      rw [Int.le_floor]
      have : (j : ℚ) = 0 := by exact_mod_cast hj0
      push_cast
      linarith
    omega
  · -- otherwise the count is exactly m
    have hj1Q : (1 : ℚ) ≤ (j : ℚ) := by exact_mod_cast hj1
    have hfloor : ⌊roundB64 x⌋ = (m : ℤ) := by
      rw [Int.floor_eq_iff]
      constructor
      · push_cast
        linarith
      · push_cast
        linarith
    rw [hfloor]
    left
    exact Int.toNat_natCast m

/-- C1: `split_dataset` partitions each class's image files: the three
lists `train_files`, `val_files`, `test_files` produced by the slicing in
`prepare_data.py` lines 74-76 from the class's (shuffled) image-file list
are pairwise disjoint, and their concatenation is a permutation of the
original image-file list, so every image file of the class lands in
exactly one split. -/
theorem splitClass_partitions (image_files shuffled : List String) (tr vr : ℚ)
    (hperm : shuffled.Perm image_files) (hnd : image_files.Nodup) :
    ((splitClass shuffled tr vr).1 ++ (splitClass shuffled tr vr).2.1 ++
        (splitClass shuffled tr vr).2.2).Perm image_files ∧
      (splitClass shuffled tr vr).1.Disjoint (splitClass shuffled tr vr).2.1 ∧
      (splitClass shuffled tr vr).1.Disjoint (splitClass shuffled tr vr).2.2 ∧
      (splitClass shuffled tr vr).2.1.Disjoint (splitClass shuffled tr vr).2.2 := by
  have hnd' : shuffled.Nodup := hperm.symm.nodup hnd
  have h := slices_partition shuffled (n_train shuffled.length tr)
    (n_train shuffled.length tr + n_val shuffled.length vr)
    (Nat.le_add_right _ _)
  have hd := h.2 hnd'
  exact ⟨by simpa only [splitClass, h.1] using hperm, hd.1, hd.2.1, hd.2.2⟩

unseal Rat.mul Rat.inv Rat.add Rat.sub in
/-- Witness for `splitClass_partitions` at a concrete three-file class. -/
theorem splitClass_partitions_witness :
    (["b.jpg", "c.jpg", "a.jpg"] : List String).Perm ["a.jpg", "b.jpg", "c.jpg"] ∧
    (["a.jpg", "b.jpg", "c.jpg"] : List String).Nodup ∧
    (((splitClass ["b.jpg", "c.jpg", "a.jpg"] float07 float015).1 ++
        (splitClass ["b.jpg", "c.jpg", "a.jpg"] float07 float015).2.1 ++
        (splitClass ["b.jpg", "c.jpg", "a.jpg"] float07 float015).2.2).Perm
        ["a.jpg", "b.jpg", "c.jpg"] ∧
      (splitClass ["b.jpg", "c.jpg", "a.jpg"] float07 float015).1.Disjoint
        (splitClass ["b.jpg", "c.jpg", "a.jpg"] float07 float015).2.1 ∧
      (splitClass ["b.jpg", "c.jpg", "a.jpg"] float07 float015).1.Disjoint
        (splitClass ["b.jpg", "c.jpg", "a.jpg"] float07 float015).2.2 ∧
      (splitClass ["b.jpg", "c.jpg", "a.jpg"] float07 float015).2.1.Disjoint
        (splitClass ["b.jpg", "c.jpg", "a.jpg"] float07 float015).2.2) :=
  ⟨by decide, by decide,
    splitClass_partitions ["a.jpg", "b.jpg", "c.jpg"] ["b.jpg", "c.jpg", "a.jpg"]
      float07 float015 (by decide) (by decide)⟩

/-- A concrete class directory listing with 90 image files. -/
def files90 : List String := (List.range 90).map (fun i => toString i ++ ".jpg")

unseal Rat.mul Rat.inv Rat.add Rat.sub in
/-- C2 counterexample: for a class of `n = 90` image files the train
split receives 62 files, not `⌊n * 0.7⌋ = 63` as claimed: Python
evaluates `int(90 * 0.7)` in binary64 arithmetic, where `90 * 0.7 ==
62.99999999999999`. -/
theorem splitClass_counts_cex :
    (splitClass files90 float07 float015).1.length = 62 ∧
      (⌊((files90.length : ℚ)) * (7 / 10)⌋).toNat = 63 := by
  constructor
  · decide
  · decide

/-- C2 (amended): for every class whose image-file list has length
`n ≤ 2 ^ 48`, with the default ratios `0.7` and `0.15`: the validation
split receives exactly `⌊n * 0.15⌋` files; the train split receives
`⌊n * 0.7⌋` or `⌊n * 0.7⌋ - 1` files (the latter occurs, e.g. at
`n = 90`, because `int(n_files * train_ratio)` is evaluated in binary64
floating point); the test split receives the remaining
`n - n_train - n_val` files.  The counts are computed from the class's
own list length only, hence independently of all other classes. -/
theorem splitClass_counts (files : List String) (n : ℕ)
    (hlen : files.length = n) (hn : n ≤ 2 ^ 48) :
    ((splitClass files float07 float015).1.length = 7 * n / 10 ∨
      (splitClass files float07 float015).1.length + 1 = 7 * n / 10) ∧
    (splitClass files float07 float015).2.1.length = 3 * n / 20 ∧
    (splitClass files float07 float015).2.2.length =
      n - (splitClass files float07 float015).1.length -
        (splitClass files float07 float015).2.1.length := by
  subst hlen
  have htr := n_train_cases files.length hn
  have hva := n_val_eq files.length hn
  simp only [splitClass, List.length_take, List.length_drop]
  omega

unseal Rat.mul Rat.inv Rat.add Rat.sub in
/-- Witness for `splitClass_counts` at the concrete 90-file class. -/
theorem splitClass_counts_witness :
    files90.length = 90 ∧ 90 ≤ 2 ^ 48 ∧
    (((splitClass files90 float07 float015).1.length = 7 * 90 / 10 ∨
      (splitClass files90 float07 float015).1.length + 1 = 7 * 90 / 10) ∧
    (splitClass files90 float07 float015).2.1.length = 3 * 90 / 20 ∧
    (splitClass files90 float07 float015).2.2.length =
      90 - (splitClass files90 float07 float015).1.length -
        (splitClass files90 float07 float015).2.1.length) :=
  ⟨by decide, by decide, splitClass_counts files90 90 (by decide) (by decide)⟩

/-! ## `prepare_data.py`: the copy phase of `split_dataset` (lines 79-87) -/

/-- A file location `(top-level directory, class subdirectory, file
name)`, the shape of every path `os.path.join` builds in
`split_dataset`. -/
abbrev FPath := String × String × String

/-- A file system: the contents found at each path, if any. -/
def FSys := FPath → Option String

/-- `shutil.copy2(src, dst)` (`prepare_data.py` line 87): afterwards the
destination holds the source's current contents and every other path
keeps its own. -/
def copy2 (fs : FSys) (src dst : FPath) : FSys :=
  fun p => if p = dst then fs src else fs p

/-- A sequence of copies, performed left to right. -/
def copyAll (pairs : List (FPath × FPath)) (fs : FSys) : FSys :=
  pairs.foldl (fun g pr => copy2 g pr.1 pr.2) fs

/-- The copies of one split list of one class: each file `f` goes from
`source_dir/class_name/f` to `dest_dir/class_name/f`
(`prepare_data.py` lines 84-87). -/
def copyList (source_dir dest_dir class_name : String) (files : List String) :
    List (FPath × FPath) :=
  files.map (fun f =>
    ((source_dir, class_name, f), (dest_dir, class_name, f)))

/-- The copies of one class (`prepare_data.py` lines 79-87): the three
split lists each go to their destination directory. -/
def classCopyPairs (source_dir train_dir val_dir test_dir class_name : String)
    (tvt : List String × List String × List String) : List (FPath × FPath) :=
  copyList source_dir train_dir class_name tvt.1 ++
    copyList source_dir val_dir class_name tvt.2.1 ++
    copyList source_dir test_dir class_name tvt.2.2

/-- The whole copy phase of `split_dataset` over the class directories:
each class's (already shuffled) image-file list is sliced by `splitClass`
and the slices are copied.  `classes` pairs each class directory name
with its image-file list.  (A class with an empty image-file list is
skipped by the `continue` at line 63; it contributes no copies, exactly
as the empty slices here.) -/
def split_dataset_fs (source_dir train_dir val_dir test_dir : String)
    ( tr vr : ℚ) (classes : List (String × List String)) (fs : FSys) : FSys :=
  copyAll (classes.flatMap (fun c =>
    classCopyPairs source_dir train_dir val_dir test_dir c.1
      (splitClass c.2 tr vr))) fs

/-- Paths that are no copy's destination are unchanged by `copyAll`. -/
theorem copyAll_frame (pairs : List (FPath × FPath)) (fs : FSys) (p : FPath)
    (h : ∀ pr ∈ pairs, pr.2 ≠ p) : copyAll pairs fs p = fs p := by
  induction pairs generalizing fs with
  | nil => rfl
  | cons a t ih =>
    show copyAll t (copy2 fs a.1 a.2) p = fs p
    rw [ih _ (fun pr hpr => h pr (List.mem_cons_of_mem a hpr))]
    simp only [copy2]
    rw [if_neg]
    intro hpa
    exact h a (List.mem_cons_self a t) (hpa ▸ rfl)

/-- When no destination repeats and no source is also a destination,
every copy's destination ends up holding that copy's original source
contents. -/
theorem copyAll_values (pairs : List (FPath × FPath)) (fs : FSys)
    (hnd : (pairs.map (fun pr => pr.2)).Nodup)
    (hsd : ∀ pr ∈ pairs, ∀ pr2 ∈ pairs, pr.1 ≠ pr2.2) :
    ∀ pr ∈ pairs, copyAll pairs fs pr.2 = fs pr.1 := by
  induction pairs generalizing fs with
  | nil => intro pr hpr; cases hpr
  | cons a t ih =>
    intro pr hpr
    rw [List.map_cons] at hnd
    have hhead : a.2 ∉ t.map (fun q => q.2) := (List.nodup_cons.mp hnd).1
    have htail : (t.map (fun q => q.2)).Nodup := (List.nodup_cons.mp hnd).2
    have hstep : copyAll (a :: t) fs = copyAll t (copy2 fs a.1 a.2) := rfl
    rcases List.mem_cons.mp hpr with rfl | hmem
    · -- the head copy: no later copy overwrites its destination
      rw [hstep, copyAll_frame]
      · simp [copy2]
      · intro pr2 hpr2 heq
        exact hhead (by
          have h2 : pr2.2 ∈ t.map (fun q => q.2) := List.mem_map_of_mem _ hpr2
          rw [heq] at h2
          exact h2)
    · -- a later copy: apply the induction hypothesis, then undo `copy2`
      rw [hstep, ih _ htail
        (fun q hq q2 hq2 =>
          hsd q (List.mem_cons_of_mem a hq) q2 (List.mem_cons_of_mem a hq2))
        pr hmem]
      simp only [copy2]
      rw [if_neg]
      exact hsd pr (List.mem_cons_of_mem a hmem) a (List.mem_cons_self a t)

/-- Every copy of a class has source under `source_dir`, keeps the class
subdirectory and the file name, and sends it to one of the three split
directories. -/
theorem classCopyPairs_shape (sd td vd xd cn : String)
    (tvt : List String × List String × List String)
    (pr : FPath × FPath) (h : pr ∈ classCopyPairs sd td vd xd cn tvt) :
    ∃ f, pr = ((sd, cn, f), (td, cn, f)) ∨ pr = ((sd, cn, f), (vd, cn, f)) ∨
      pr = ((sd, cn, f), (xd, cn, f)) := by
  simp only [classCopyPairs, copyList, List.mem_append, List.mem_map] at h
  rcases h with (⟨f, _, rfl⟩ | ⟨f, _, rfl⟩) | ⟨f, _, rfl⟩
  · exact ⟨f, Or.inl rfl⟩
  · exact ⟨f, Or.inr (Or.inl rfl)⟩
  · exact ⟨f, Or.inr (Or.inr rfl)⟩

/-- Copying one class with duplicate-free split lists and distinct
directories places each split file's source contents at its destination. -/
theorem classCopyPairs_values (sd td vd xd cn : String)
    (t v te : List String) (fs : FSys)
    (ht : t.Nodup) (hv : v.Nodup) (hte : te.Nodup)
    (hs1 : sd ≠ td) (hs2 : sd ≠ vd) (hs3 : sd ≠ xd)
    (hd1 : td ≠ vd) (hd2 : td ≠ xd) (hd3 : vd ≠ xd) :
    (∀ f ∈ t,
      copyAll (classCopyPairs sd td vd xd cn (t, v, te)) fs (td, cn, f) =
        fs (sd, cn, f)) ∧
    (∀ f ∈ v,
      copyAll (classCopyPairs sd td vd xd cn (t, v, te)) fs (vd, cn, f) =
        fs (sd, cn, f)) ∧
    (∀ f ∈ te,
      copyAll (classCopyPairs sd td vd xd cn (t, v, te)) fs (xd, cn, f) =
        fs (sd, cn, f)) := by
  have hmapt : (copyList sd td cn t).map (fun q => q.2) =
      t.map (fun f => (td, cn, f)) := by
    simp [copyList, List.map_map, Function.comp]
  have hmapv : (copyList sd vd cn v).map (fun q => q.2) =
      v.map (fun f => (vd, cn, f)) := by
    simp [copyList, List.map_map, Function.comp]
  have hmapte : (copyList sd xd cn te).map (fun q => q.2) =
      te.map (fun f => (xd, cn, f)) := by
    simp [copyList, List.map_map, Function.comp]
  have hinj : ∀ d : String, Function.Injective (fun f => ((d, cn, f) : FPath)) := by
    intro d a b h
    exact congrArg (fun p => p.2.2) h
  have hnd : ((classCopyPairs sd td vd xd cn (t, v, te)).map
      (fun pr => pr.2)).Nodup := by
    simp only [classCopyPairs, List.map_append]
    rw [hmapt, hmapv, hmapte]
    rw [List.append_assoc, List.nodup_append]
    refine ⟨ht.map (hinj td), ?_, ?_⟩
    · rw [List.nodup_append]
      refine ⟨hv.map (hinj vd), hte.map (hinj xd), ?_⟩
      intro a ha hb
      obtain ⟨f1, _, rfl⟩ := List.mem_map.mp ha
      obtain ⟨f2, _, h2⟩ := List.mem_map.mp hb
      exact hd3 (congrArg (fun p => p.1) h2).symm
    · intro a ha hb
      obtain ⟨f1, _, rfl⟩ := List.mem_map.mp ha
      rcases List.mem_append.mp hb with hb' | hb'
      · obtain ⟨f2, _, h2⟩ := List.mem_map.mp hb'
        exact hd1 (congrArg (fun p => p.1) h2).symm
      · obtain ⟨f2, _, h2⟩ := List.mem_map.mp hb'
        exact hd2 (congrArg (fun p => p.1) h2).symm
  have hsd : ∀ pr ∈ classCopyPairs sd td vd xd cn (t, v, te),
      ∀ pr2 ∈ classCopyPairs sd td vd xd cn (t, v, te), pr.1 ≠ pr2.2 := by
    intro pr hpr pr2 hpr2 heq
    obtain ⟨f1, hc1⟩ := classCopyPairs_shape _ _ _ _ _ _ pr hpr
    obtain ⟨f2, hc2⟩ := classCopyPairs_shape _ _ _ _ _ _ pr2 hpr2
    have h1 : pr.1.1 = sd := by rcases hc1 with rfl | rfl | rfl <;> rfl
    have h2 : pr2.2.1 = td ∨ pr2.2.1 = vd ∨ pr2.2.1 = xd := by
      rcases hc2 with rfl | rfl | rfl
      · exact Or.inl rfl
      · exact Or.inr (Or.inl rfl)
      · exact Or.inr (Or.inr rfl)
    rw [heq] at h1
    rcases h2 with h2 | h2 | h2
    · exact hs1 (h1 ▸ h2 ▸ rfl)
    · exact hs2 (h1 ▸ h2 ▸ rfl)
    · exact hs3 (h1 ▸ h2 ▸ rfl)
  have hval := copyAll_values _ fs hnd hsd
  refine ⟨fun f hf => ?_, fun f hf => ?_, fun f hf => ?_⟩
  · exact hval ((sd, cn, f), (td, cn, f))
      (List.mem_append.mpr (Or.inl (List.mem_append.mpr (Or.inl
        (List.mem_map_of_mem _ hf)))))
  · exact hval ((sd, cn, f), (vd, cn, f))
      (List.mem_append.mpr (Or.inl (List.mem_append.mpr (Or.inr
        (List.mem_map_of_mem _ hf)))))
  · exact hval ((sd, cn, f), (xd, cn, f))
      (List.mem_append.mpr (Or.inr (List.mem_map_of_mem _ hf)))

/-- Unfolding the copy phase one class at a time. -/
theorem split_dataset_fs_cons (sd td vd xd : String) ( tr vr : ℚ)
    (c : String × List String) (rest : List (String × List String)) (fs : FSys) :
    split_dataset_fs sd td vd xd tr vr (c :: rest) fs =
      split_dataset_fs sd td vd xd tr vr rest
        (copyAll (classCopyPairs sd td vd xd c.1 (splitClass c.2 tr vr)) fs) := by
  simp only [split_dataset_fs, List.flatMap_cons, copyAll, List.foldl_append]

/-- The copy phase never writes under a directory that is none of the
three split directories (in particular, never under the source). -/
theorem split_dataset_fs_frame_dir (sd td vd xd : String) ( tr vr : ℚ)
    (classes : List (String × List String)) (fs : FSys) (p : FPath)
    (hp : p.1 ≠ td ∧ p.1 ≠ vd ∧ p.1 ≠ xd) :
    split_dataset_fs sd td vd xd tr vr classes fs p = fs p := by
  apply copyAll_frame
  intro pr hpr heq
  obtain ⟨cls, _, hmem⟩ := List.mem_flatMap.mp hpr
  obtain ⟨f, hc⟩ := classCopyPairs_shape _ _ _ _ _ _ pr hmem
  rcases hc with rfl | rfl | rfl
  · exact hp.1 (by rw [← heq])
  · exact hp.2.1 (by rw [← heq])
  · exact hp.2.2 (by rw [← heq])

/-- The copy phase never writes into the class subdirectory of a class
that is not in its listing. -/
theorem split_dataset_fs_frame_class (sd td vd xd : String) ( tr vr : ℚ)
    (classes : List (String × List String)) (fs : FSys) (p : FPath)
    (hp : ∀ cls ∈ classes, cls.1 ≠ p.2.1) :
    split_dataset_fs sd td vd xd tr vr classes fs p = fs p := by
  apply copyAll_frame
  intro pr hpr heq
  obtain ⟨cls, hcls, hmem⟩ := List.mem_flatMap.mp hpr
  obtain ⟨f, hc⟩ := classCopyPairs_shape _ _ _ _ _ _ pr hmem
  have : pr.2.2.1 = cls.1 := by rcases hc with rfl | rfl | rfl <;> rfl
  exact hp cls hcls (by rw [← this, heq])

/-- C6: `split_dataset` preserves the class directory structure and does
not destroy the source.  Under the directory layout of `main` (the four
directories pairwise distinct) and duplicate-free listings (as
`os.listdir` yields): every path under `source_dir` keeps its contents,
and every file `f` of a class's train/val/test slice ends up at
`split_dir/class_name/f` — same class subdirectory, same file name —
holding the contents of `source_dir/class_name/f`. -/
theorem split_dataset_preserves (source_dir train_dir val_dir test_dir : String)
    ( tr vr : ℚ) (classes : List (String × List String)) (fs : FSys)
    (hnames : (classes.map Prod.fst).Nodup)
    (hfiles : ∀ c ∈ classes, c.2.Nodup)
    (hs1 : source_dir ≠ train_dir) (hs2 : source_dir ≠ val_dir)
    (hs3 : source_dir ≠ test_dir)
    (hd1 : train_dir ≠ val_dir) (hd2 : train_dir ≠ test_dir)
    (hd3 : val_dir ≠ test_dir) :
    (∀ c f, split_dataset_fs source_dir train_dir val_dir test_dir tr vr classes fs
        (source_dir, c, f) = fs (source_dir, c, f)) ∧
    (∀ c ∈ classes,
      (∀ f ∈ (splitClass c.2 tr vr).1,
        split_dataset_fs source_dir train_dir val_dir test_dir tr vr classes fs
          (train_dir, c.1, f) = fs (source_dir, c.1, f)) ∧
      (∀ f ∈ (splitClass c.2 tr vr).2.1,
        split_dataset_fs source_dir train_dir val_dir test_dir tr vr classes fs
          (val_dir, c.1, f) = fs (source_dir, c.1, f)) ∧
      (∀ f ∈ (splitClass c.2 tr vr).2.2,
        split_dataset_fs source_dir train_dir val_dir test_dir tr vr classes fs
          (test_dir, c.1, f) = fs (source_dir, c.1, f))) := by
  induction classes generalizing fs with
  | nil =>
    refine ⟨fun c f => rfl, ?_⟩
    intro c hc
    cases hc
  | cons c rest ih =>
    rw [List.map_cons] at hnames
    have hhead : c.1 ∉ rest.map Prod.fst := (List.nodup_cons.mp hnames).1
    have htail : (rest.map Prod.fst).Nodup := (List.nodup_cons.mp hnames).2
    have hc2 := hfiles c (List.mem_cons_self c rest)
    have ht : (splitClass c.2 tr vr).1.Nodup :=
      hc2.sublist (List.take_sublist _ _)
    have hv : (splitClass c.2 tr vr).2.1.Nodup :=
      hc2.sublist ((List.drop_sublist _ _).trans (List.take_sublist _ _))
    have hte : (splitClass c.2 tr vr).2.2.Nodup :=
      hc2.sublist (List.drop_sublist _ _)
    have hW := classCopyPairs_values source_dir train_dir val_dir test_dir c.1
      (splitClass c.2 tr vr).1 (splitClass c.2 tr vr).2.1 (splitClass c.2 tr vr).2.2
      fs ht hv hte hs1 hs2 hs3 hd1 hd2 hd3
    set fs1 : FSys :=
      copyAll (classCopyPairs source_dir train_dir val_dir test_dir c.1
        (splitClass c.2 tr vr)) fs with hfs1
    have hfs1src : ∀ cname f, fs1 (source_dir, cname, f) = fs (source_dir, cname, f) := by
      intro cname f
      apply copyAll_frame
      intro pr hpr heq
      obtain ⟨g, hg⟩ := classCopyPairs_shape _ _ _ _ _ _ pr hpr
      rcases hg with rfl | rfl | rfl
      · exact hs1 (congrArg (fun p => p.1) heq).symm
      · exact hs2 (congrArg (fun p => p.1) heq).symm
      · exact hs3 (congrArg (fun p => p.1) heq).symm
    have ihav := ih fs1 htail (fun cls hcls => hfiles cls (List.mem_cons_of_mem c hcls))
    constructor
    · intro cname f
      rw [split_dataset_fs_cons, ← hfs1, ihav.1, hfs1src]
    · intro cls hcls
      rcases List.mem_cons.mp hcls with rfl | hmem
      · -- the head class: later classes never touch its subdirectory
        have hrest : ∀ cls2 ∈ rest, cls2.1 ≠ cls.1 := by
          intro cls2 hcls2 heq
          exact hhead (heq ▸ List.mem_map_of_mem Prod.fst hcls2)
        refine ⟨fun f hf => ?_, fun f hf => ?_, fun f hf => ?_⟩
        · rw [split_dataset_fs_cons, ← hfs1,
            split_dataset_fs_frame_class _ _ _ _ _ _ rest fs1 _ hrest]
          exact hW.1 f hf
        · rw [split_dataset_fs_cons, ← hfs1,
            split_dataset_fs_frame_class _ _ _ _ _ _ rest fs1 _ hrest]
          exact hW.2.1 f hf
        · rw [split_dataset_fs_cons, ← hfs1,
            split_dataset_fs_frame_class _ _ _ _ _ _ rest fs1 _ hrest]
          exact hW.2.2 f hf
      · -- a later class: its copies happen in the recursive call, whose
        -- sources the head class's copies left untouched
        have hih := ihav.2 cls hmem
        refine ⟨fun f hf => ?_, fun f hf => ?_, fun f hf => ?_⟩
        · rw [split_dataset_fs_cons, ← hfs1, hih.1 f hf, hfs1src]
        · rw [split_dataset_fs_cons, ← hfs1, hih.2.1 f hf, hfs1src]
        · rw [split_dataset_fs_cons, ← hfs1, hih.2.2 f hf, hfs1src]

/-- Witness for `split_dataset_preserves` at a one-class listing. -/
theorem split_dataset_preserves_witness :
    ((([("cat", ["a.jpg", "b.jpg", "c.jpg"])] :
        List (String × List String)).map Prod.fst).Nodup) ∧
    (∀ c ∈ ([("cat", ["a.jpg", "b.jpg", "c.jpg"])] :
        List (String × List String)), c.2.Nodup) ∧
    ("raw" ≠ "train") ∧ ("raw" ≠ "val") ∧ ("raw" ≠ "test") ∧
    ("train" ≠ "val") ∧ ("train" ≠ "test") ∧ ("val" ≠ "test") ∧
    ((∀ c f, split_dataset_fs "raw" "train" "val" "test" float07 float015
        [("cat", ["a.jpg", "b.jpg", "c.jpg"])] (fun p => some p.2.2)
        ("raw", c, f) = (fun p : FPath => some p.2.2) ("raw", c, f)) ∧
    (∀ c ∈ ([("cat", ["a.jpg", "b.jpg", "c.jpg"])] :
        List (String × List String)),
      (∀ f ∈ (splitClass c.2 float07 float015).1,
        split_dataset_fs "raw" "train" "val" "test" float07 float015
          [("cat", ["a.jpg", "b.jpg", "c.jpg"])] (fun p => some p.2.2)
          ("train", c.1, f) = (fun p : FPath => some p.2.2) ("raw", c.1, f)) ∧
      (∀ f ∈ (splitClass c.2 float07 float015).2.1,
        split_dataset_fs "raw" "train" "val" "test" float07 float015
          [("cat", ["a.jpg", "b.jpg", "c.jpg"])] (fun p => some p.2.2)
          ("val", c.1, f) = (fun p : FPath => some p.2.2) ("raw", c.1, f)) ∧
      (∀ f ∈ (splitClass c.2 float07 float015).2.2,
        split_dataset_fs "raw" "train" "val" "test" float07 float015
          [("cat", ["a.jpg", "b.jpg", "c.jpg"])] (fun p => some p.2.2)
          ("test", c.1, f) = (fun p : FPath => some p.2.2) ("raw", c.1, f)))) :=
  ⟨by decide, by decide, by decide, by decide, by decide, by decide, by decide,
    by decide,
    split_dataset_preserves "raw" "train" "val" "test" float07 float015
      [("cat", ["a.jpg", "b.jpg", "c.jpg"])] (fun p => some p.2.2)
      (by decide) (by decide) (by decide) (by decide) (by decide)
      (by decide) (by decide) (by decide)⟩

/-! ## `prepare_data.py`: determinism of `main` (lines 92-116) -/

/-- Deterministic stand-in for Python's PRNG state transition (the
`random` module is an external library; for the determinism claim only
the fact that its state evolves as a pure function of the previous state
matters).  A 64-bit linear congruential step. -/
def lcgNext (s : ℕ) : ℕ := (6364136223846793005 * s + 1442695040888963407) % 2 ^ 64

/-- `random.shuffle(image_files)` (`prepare_data.py` line 66), modelled
as a pure function from the PRNG state and the list to the advanced
state and the permuted list: repeatedly draw an index below the
remaining length and move that element to the front. -/
def pyShuffle {α : Type} : ℕ → List α → ℕ × List α
  | s, [] => (s, [])
  | s, x :: xs =>
      let rest := pyShuffle (lcgNext s)
        ((x :: xs).eraseIdx (lcgNext s % (xs.length + 1)))
      (rest.1, (x :: xs).getD (lcgNext s % (xs.length + 1)) x :: rest.2)
termination_by _ l => l.length
decreasing_by
  have hlt : lcgNext s % (xs.length + 1) < xs.length + 1 :=
    Nat.mod_lt _ (Nat.succ_pos _)
  simp [List.length_eraseIdx, hlt]

/-- The constant passed to `random.seed` by `main`
(`prepare_data.py` line 98). -/
def random_seed : ℕ := 42

/-- The split produced by `prepare_data.py`'s `main` on a given
directory listing: seed the generator with 42, then for each class
filter its image files, skip the class if none remain, otherwise shuffle
(advancing the shared PRNG state) and slice with the default ratios.
Returns each processed class's `(train, val, test)` lists. -/
def prepare_main (classes : List (String × List String)) :
    List (String × (List String × List String × List String)) :=
  (classes.foldl (fun acc c =>
      let image_files := c.2.filter (fun f => isImageFile f)
      if image_files.isEmpty then acc
      else
        let sh := pyShuffle acc.1 image_files
        (sh.1, acc.2 ++ [(c.1, splitClass sh.2 float07 float015)]))
    (random_seed, [])).2

/-- Which split a file of a class was assigned to. -/
inductive Split : Type
  | train
  | val
  | test
deriving DecidableEq

/-- Look up the split assigned to file `f` of class `c` in the output of
`prepare_main`. -/
def assignedSplit (out : List (String × (List String × List String × List String)))
    (c f : String) : Option Split :=
  match out.find? (fun e => e.1 = c) with
  | none => none
  | some e =>
      if f ∈ e.2.1 then some Split.train
      else if f ∈ e.2.2.1 then some Split.val
      else if f ∈ e.2.2.2 then some Split.test
      else none

/-- C10: the dataset split is deterministic given its inputs: `main`
seeds the generator with the constant 42, and the whole run is a pure
function of the directory listing, so two runs over the same listing
assign every file of every class to the same split. -/
theorem prepare_main_deterministic (l1 l2 : List (String × List String))
    (h : l1 = l2) (c f : String) :
    assignedSplit (prepare_main l1) c f = assignedSplit (prepare_main l2) c f := by
  subst h
  rfl

/-- Witness for `prepare_main_deterministic` on a concrete listing. -/
theorem prepare_main_deterministic_witness :
    ([("cat", ["a.jpg", "b.jpg"])] : List (String × List String)) =
      [("cat", ["a.jpg", "b.jpg"])] ∧
    assignedSplit (prepare_main [("cat", ["a.jpg", "b.jpg"])]) "cat" "a.jpg" =
      assignedSplit (prepare_main [("cat", ["a.jpg", "b.jpg"])]) "cat" "a.jpg" :=
  ⟨rfl, prepare_main_deterministic _ _ rfl "cat" "a.jpg"⟩

/-! ## `main.py`: the dataset indexer `NaturalImagesDataset.__init__`
(lines 24-52) -/

/-- One entry of the dataset root directory: its name, whether it is a
directory, and (when it is) the names `os.listdir` returns inside it. -/
structure DirEntry where
  name : String
  isDir : Bool
  files : List String
deriving DecidableEq

/-- `self.classes = sorted(os.listdir(root_dir))` (`main.py` line 34):
all entries of the root, sorted by name. -/
def datasetClasses (entries : List DirEntry) : List String :=
  (entries.map (fun e => e.name)).mergeSort (fun a b => a ≤ b)

/-- `self.class_to_idx = {cls_name: i for i, cls_name in
enumerate(self.classes)}` (`main.py` line 36).  `os.listdir` returns
each entry once, so the dictionary maps a class name to its position in
`self.classes`. -/
def class_to_idx (classes : List String) (cls_name : String) : ℕ :=
  classes.indexOf cls_name

/-- The index built by `NaturalImagesDataset.__init__` (`main.py` lines
41-48): for each name of `self.classes` in order, skip it unless it is a
directory, and otherwise record every contained file with an image
extension together with its label `self.class_to_idx[class_name]`.
Entries are kept as `((class_name, file_name), label)`; `self.images`
and `self.labels` are the two projections. -/
def datasetIndex (entries : List DirEntry) : List ((String × String) × ℕ) :=
  (datasetClasses entries).flatMap (fun cls =>
    match entries.find? (fun e => e.name = cls) with
    | none => []
    | some e =>
        if e.isDir then
          (e.files.filter (fun f => isImageFile f)).map
            (fun f => ((cls, f), class_to_idx (datasetClasses entries) cls))
        else [])

/-- `self.images` of the dataset. -/
def dataset_images (entries : List DirEntry) : List (String × String) :=
  (datasetIndex entries).map Prod.fst

/-- `self.labels` of the dataset. -/
def dataset_labels (entries : List DirEntry) : List ℕ :=
  (datasetIndex entries).map Prod.snd

/-- `__len__` (`main.py` lines 50-52): `len(self.images)`. -/
def dataset_len (entries : List DirEntry) : ℕ :=
  (dataset_images entries).length

/-- With duplicate-free entry names, `find?` by name retrieves exactly
the member entry. -/
theorem find?_entry (entries : List DirEntry) (e : DirEntry)
    (hnd : (entries.map (fun x => x.name)).Nodup) (he : e ∈ entries) :
    entries.find? (fun x => x.name = e.name) = some e := by
  induction entries with
  | nil => cases he
  | cons a t ih =>
    rw [List.map_cons] at hnd
    rcases List.mem_cons.mp he with rfl | hmem
    · rw [List.find?_cons_of_pos _ (by simp)]
    · have hne : a.name ≠ e.name := by
        intro h
        exact (List.nodup_cons.mp hnd).1 (h ▸ List.mem_map_of_mem _ hmem)
      rw [List.find?_cons_of_neg _ (by simpa using hne)]
      exact ih (List.nodup_cons.mp hnd).2 hmem

/-- C3: the dataset indexer indexes exactly the files whose name ends
case-insensitively in `.jpg`/`.jpeg`/`.png` inside subdirectories of the
root, labels each one with the position of its containing folder's name
in the sorted list of all root entries, and `__len__` counts the files
so indexed: labels derive solely from the class-named folder
structure. -/
theorem datasetIndex_spec (entries : List DirEntry)
    (hnd : (entries.map (fun e => e.name)).Nodup) :
    (∀ c f lab, ((c, f), lab) ∈ datasetIndex entries ↔
      ((∃ e ∈ entries, e.name = c ∧ e.isDir = true ∧ f ∈ e.files ∧
          isImageFile f = true) ∧
        lab = (datasetClasses entries).indexOf c)) ∧
    dataset_len entries = (datasetIndex entries).length ∧
    (dataset_labels entries).length = (datasetIndex entries).length := by
  refine ⟨fun c f lab => ⟨fun h => ?_, fun h => ?_⟩, ?_, ?_⟩
  · obtain ⟨cls, hcls, hin⟩ := List.mem_flatMap.mp h
    rcases hfind : entries.find? (fun e => e.name = cls) with _ | e
    · simp only [hfind, List.not_mem_nil] at hin
    · simp only [hfind] at hin
      rcases hdir : e.isDir with _ | _
      · simp only [hdir, Bool.false_eq_true, if_false, List.not_mem_nil] at hin
      · simp only [hdir, if_true] at hin
        obtain ⟨f', hf', heq⟩ := List.mem_map.mp hin
        have hc : cls = c := congrArg (fun q => q.1.1) heq
        have hf : f' = f := congrArg (fun q => q.1.2) heq
        have hlab : class_to_idx (datasetClasses entries) cls = lab :=
          congrArg (fun q => q.2) heq
        have hmem := List.mem_of_find?_eq_some hfind
        have hname : e.name = cls := by
          have := List.find?_some hfind
          exact of_decide_eq_true this
        refine ⟨⟨e, hmem, hc ▸ hname, hdir, ?_, ?_⟩, ?_⟩
        · exact hf ▸ (List.mem_filter.mp hf').1
        · exact hf ▸ (List.mem_filter.mp hf').2
        · rw [← hlab, ← hc]
          rfl
  · obtain ⟨⟨e, hmem, hname, hdir, hfile, himg⟩, hlab⟩ := h
    apply List.mem_flatMap.mpr
    refine ⟨c, ?_, ?_⟩
    · have hperm : (datasetClasses entries).Perm (entries.map (fun e => e.name)) :=
        List.mergeSort_perm _ _
      exact hperm.mem_iff.mpr (hname ▸ List.mem_map_of_mem _ hmem)
    · have hfind : entries.find? (fun x => x.name = c) = some e := by
        rw [← hname]
        exact find?_entry entries e hnd hmem
      simp only [hfind, hdir, if_true]
      apply List.mem_map.mpr
      refine ⟨f, List.mem_filter.mpr ⟨hfile, himg⟩, ?_⟩
      rw [hlab]
      rfl
  · simp [dataset_len, dataset_images]
  · simp [dataset_labels]

/-- Witness for `datasetIndex_spec` at a concrete root listing with a
stray non-directory entry. -/
theorem datasetIndex_spec_witness :
    (([⟨"dog", true, ["b.PNG", "notes.txt"]⟩, ⟨"cat", true, ["a.jpg"]⟩,
        ⟨"readme.md", false, []⟩] : List DirEntry).map
      (fun e => e.name)).Nodup ∧
    ((∀ c f lab, ((c, f), lab) ∈ datasetIndex
        [⟨"dog", true, ["b.PNG", "notes.txt"]⟩, ⟨"cat", true, ["a.jpg"]⟩,
          ⟨"readme.md", false, []⟩] ↔
      ((∃ e ∈ ([⟨"dog", true, ["b.PNG", "notes.txt"]⟩, ⟨"cat", true, ["a.jpg"]⟩,
          ⟨"readme.md", false, []⟩] : List DirEntry), e.name = c ∧ e.isDir = true ∧
          f ∈ e.files ∧ isImageFile f = true) ∧
        lab = (datasetClasses [⟨"dog", true, ["b.PNG", "notes.txt"]⟩,
          ⟨"cat", true, ["a.jpg"]⟩, ⟨"readme.md", false, []⟩]).indexOf c)) ∧
    dataset_len [⟨"dog", true, ["b.PNG", "notes.txt"]⟩, ⟨"cat", true, ["a.jpg"]⟩,
        ⟨"readme.md", false, []⟩] =
      (datasetIndex [⟨"dog", true, ["b.PNG", "notes.txt"]⟩, ⟨"cat", true, ["a.jpg"]⟩,
        ⟨"readme.md", false, []⟩]).length ∧
    (dataset_labels [⟨"dog", true, ["b.PNG", "notes.txt"]⟩, ⟨"cat", true, ["a.jpg"]⟩,
        ⟨"readme.md", false, []⟩]).length =
      (datasetIndex [⟨"dog", true, ["b.PNG", "notes.txt"]⟩, ⟨"cat", true, ["a.jpg"]⟩,
        ⟨"readme.md", false, []⟩]).length) :=
  ⟨by decide,
    datasetIndex_spec
      [⟨"dog", true, ["b.PNG", "notes.txt"]⟩, ⟨"cat", true, ["a.jpg"]⟩,
        ⟨"readme.md", false, []⟩] (by decide)⟩

/-! ## `main.py`: `train_epoch` (lines 99-145) and `validate`
(lines 147-177)

The torch model, the loss criterion and the optimizer are external
collaborators; they enter the embedding as explicit pure functions: a
model state type `M`, `forward` for `model(inputs)` per sample,
`criterion` for the batch loss value (`loss.item()`), and `optStep` for
the combined `loss.backward(); optimizer.step()` model update.  Python
runtime errors of the final divisions are modelled with `Except`. -/

/-- A Python runtime error relevant to these scripts. -/
inductive PyError : Type
  | zeroDivisionError
  | unboundLocalError
deriving DecidableEq

/-- One batch yielded by a DataLoader. -/
structure TorchBatch (ι : Type) where
  inputs : List ι
  labels : List ℕ
deriving DecidableEq

/-- Helper of `argmax`: scan with the best index and value so far. -/
def argmaxAux : List ℚ → ℕ → ℕ → ℚ → ℕ
  | [], _, bi, _ => bi
  | y :: ys, i, bi, bv =>
      if bv < y then argmaxAux ys (i + 1) i y else argmaxAux ys (i + 1) bi bv

/-- `outputs.max(1)` for one output row: the index of its (first)
maximal entry. -/
def argmax (l : List ℚ) : ℕ :=
  match l with
  | [] => 0
  | y :: ys => argmaxAux ys 1 0 y

/-- `predicted.eq(labels).sum().item()` for one batch: how many samples
have argmax prediction equal to their label. -/
def batchCorrect (outputs : List (List ℚ)) (labels : List ℕ) : ℕ :=
  ((outputs.map argmax).zip labels).countP (fun p => p.1 = p.2)

/-- The running statistics of one epoch, together with the (possibly
updated) model. -/
structure EpochState (M : Type) where
  model : M
  running_loss : ℚ
  correct : ℕ
  total : ℕ

/-- The body of the training loop (`main.py` lines 117-136): forward on
the current model, loss, optimizer step, accumulate statistics. -/
def epochStep {M ι : Type} (forward : M → ι → List ℚ)
    (criterion : List (List ℚ) → List ℕ → ℚ)
    (optStep : M → TorchBatch ι → M)
    (st : EpochState M) (b : TorchBatch ι) : EpochState M :=
  let outputs := b.inputs.map (forward st.model)
  { model := optStep st.model b
    running_loss := st.running_loss + criterion outputs b.labels
    correct := st.correct + batchCorrect outputs b.labels
    total := st.total + b.labels.length }

/-- `train_epoch` (`main.py` lines 99-145): run the loop, then return
`(running_loss / len(train_loader), 100. * correct / total)`; either
division raises `ZeroDivisionError` when its divisor is zero. -/
def train_epoch {M ι : Type} (forward : M → ι → List ℚ)
    (criterion : List (List ℚ) → List ℕ → ℚ)
    (optStep : M → TorchBatch ι → M)
    (train_loader : List (TorchBatch ι)) (m0 : M) :
    M × Except PyError (ℚ × ℚ) :=
  let st := train_loader.foldl (epochStep forward criterion optStep)
    ⟨m0, 0, 0, 0⟩
  (st.model,
    if train_loader.length = 0 then Except.error PyError.zeroDivisionError
    else if st.total = 0 then Except.error PyError.zeroDivisionError
    else Except.ok (st.running_loss / (train_loader.length : ℚ),
      100 * (st.correct : ℚ) / (st.total : ℚ)))

/-- The body of the validation loop (`main.py` lines 164-173): under
`model.eval()` and `torch.no_grad()` the forward pass reads the model
but never writes it, so the model component is carried unchanged. -/
def valStep {M ι : Type} (forward : M → ι → List ℚ)
    (criterion : List (List ℚ) → List ℕ → ℚ)
    (st : EpochState M) (b : TorchBatch ι) : EpochState M :=
  let outputs := b.inputs.map (forward st.model)
  { model := st.model
    running_loss := st.running_loss + criterion outputs b.labels
    correct := st.correct + batchCorrect outputs b.labels
    total := st.total + b.labels.length }

/-- `validate` (`main.py` lines 147-177). -/
def validate {M ι : Type} (forward : M → ι → List ℚ)
    (criterion : List (List ℚ) → List ℕ → ℚ)
    (val_loader : List (TorchBatch ι)) (m0 : M) :
    M × Except PyError (ℚ × ℚ) :=
  let st := val_loader.foldl (valStep forward criterion) ⟨m0, 0, 0, 0⟩
  (st.model,
    if val_loader.length = 0 then Except.error PyError.zeroDivisionError
    else if st.total = 0 then Except.error PyError.zeroDivisionError
    else Except.ok (st.running_loss / (val_loader.length : ℚ),
      100 * (st.correct : ℚ) / (st.total : ℚ)))

/-- The per-batch `(outputs, labels)` trace of one training epoch, with
the model advancing by `optStep` after each batch. -/
def epochTrace {M ι : Type} (forward : M → ι → List ℚ)
    (optStep : M → TorchBatch ι → M) :
    List (TorchBatch ι) → M → List (List (List ℚ) × List ℕ)
  | [], _ => []
  | b :: bs, m =>
      (b.inputs.map (forward m), b.labels) ::
        epochTrace forward optStep bs (optStep m b)

/-- Closed form of the training fold's statistics. -/
theorem trainFold_spec {M ι : Type} (forward : M → ι → List ℚ)
    (criterion : List (List ℚ) → List ℕ → ℚ)
    (optStep : M → TorchBatch ι → M) :
    ∀ (loader : List (TorchBatch ι)) (st : EpochState M),
      (loader.foldl (epochStep forward criterion optStep) st).running_loss =
        st.running_loss + ((epochTrace forward optStep loader st.model).map
          (fun t => criterion t.1 t.2)).sum ∧
      (loader.foldl (epochStep forward criterion optStep) st).correct =
        st.correct + ((epochTrace forward optStep loader st.model).map
          (fun t => batchCorrect t.1 t.2)).sum ∧
      (loader.foldl (epochStep forward criterion optStep) st).total =
        st.total + (loader.map (fun b => b.labels.length)).sum := by
  intro loader
  induction loader with
  | nil => intro st; simp [epochTrace]
  | cons b bs ih =>
    intro st
    have hstep := ih (epochStep forward criterion optStep st b)
    simp only [List.foldl_cons, List.map_cons, List.sum_cons, epochTrace,
      List.map, epochStep] at hstep ⊢
    refine ⟨?_, ?_, ?_⟩
    · rw [hstep.1]; ring
    · rw [hstep.2.1]; omega
    · rw [hstep.2.2]; omega

/-- Closed form of the validation fold: the model is carried unchanged
and the statistics are sums over the loader. -/
theorem valFold_spec {M ι : Type} (forward : M → ι → List ℚ)
    (criterion : List (List ℚ) → List ℕ → ℚ) :
    ∀ (loader : List (TorchBatch ι)) (st : EpochState M),
      (loader.foldl (valStep forward criterion) st).model = st.model ∧
      (loader.foldl (valStep forward criterion) st).running_loss =
        st.running_loss + (loader.map
          (fun b => criterion (b.inputs.map (forward st.model)) b.labels)).sum ∧
      (loader.foldl (valStep forward criterion) st).correct =
        st.correct + (loader.map
          (fun b => batchCorrect (b.inputs.map (forward st.model)) b.labels)).sum ∧
      (loader.foldl (valStep forward criterion) st).total =
        st.total + (loader.map (fun b => b.labels.length)).sum := by
  intro loader
  induction loader with
  | nil => intro st; simp
  | cons b bs ih =>
    intro st
    have hstep := ih (valStep forward criterion st b)
    simp only [List.foldl_cons, List.map_cons, List.sum_cons, valStep] at hstep ⊢
    refine ⟨hstep.1, ?_, ?_, ?_⟩
    · rw [hstep.2.1]; ring
    · rw [hstep.2.2.1]; omega
    · rw [hstep.2.2.2]; omega

/-- C7: the validation runner is read-only with respect to the model:
`validate` returns its `(loss, accuracy)` pair with the model component
unchanged — no optimizer step or parameter write occurs during
validation (`model.eval()` with `torch.no_grad()`). -/
theorem validate_model_unchanged {M ι : Type} (forward : M → ι → List ℚ)
    (criterion : List (List ℚ) → List ℕ → ℚ)
    (val_loader : List (TorchBatch ι)) (m0 : M) :
    (validate forward criterion val_loader m0).1 = m0 :=
  (valFold_spec forward criterion val_loader ⟨m0, 0, 0, 0⟩).1

/-- The result component of `train_epoch`, unfolded. -/
theorem train_epoch_result {M ι : Type} (forward : M → ι → List ℚ)
    (criterion : List (List ℚ) → List ℕ → ℚ)
    (optStep : M → TorchBatch ι → M)
    (loader : List (TorchBatch ι)) (m0 : M) :
    (train_epoch forward criterion optStep loader m0).2 =
      if loader.length = 0 then Except.error PyError.zeroDivisionError
      else if (loader.foldl (epochStep forward criterion optStep)
          ⟨m0, 0, 0, 0⟩).total = 0 then Except.error PyError.zeroDivisionError
      else Except.ok
        ((loader.foldl (epochStep forward criterion optStep)
            ⟨m0, 0, 0, 0⟩).running_loss / (loader.length : ℚ),
          100 * ((loader.foldl (epochStep forward criterion optStep)
            ⟨m0, 0, 0, 0⟩).correct : ℚ) /
            ((loader.foldl (epochStep forward criterion optStep)
              ⟨m0, 0, 0, 0⟩).total : ℚ)) := rfl

/-- The result component of `validate`, unfolded. -/
theorem validate_result {M ι : Type} (forward : M → ι → List ℚ)
    (criterion : List (List ℚ) → List ℕ → ℚ)
    (loader : List (TorchBatch ι)) (m0 : M) :
    (validate forward criterion loader m0).2 =
      if loader.length = 0 then Except.error PyError.zeroDivisionError
      else if (loader.foldl (valStep forward criterion)
          ⟨m0, 0, 0, 0⟩).total = 0 then Except.error PyError.zeroDivisionError
      else Except.ok
        ((loader.foldl (valStep forward criterion)
            ⟨m0, 0, 0, 0⟩).running_loss / (loader.length : ℚ),
          100 * ((loader.foldl (valStep forward criterion)
            ⟨m0, 0, 0, 0⟩).correct : ℚ) /
            ((loader.foldl (valStep forward criterion)
              ⟨m0, 0, 0, 0⟩).total : ℚ)) := rfl

/-- C4: over any nonempty batch sequence with at least one sample,
`train_epoch` returns `(epoch_loss, epoch_accuracy)` with `epoch_loss`
the sum of the per-batch loss values divided by the number of batches,
and `epoch_accuracy` 100 times the number of argmax-correct samples
divided by the total sample count; `validate` computes the same two
statistics over its loader (with the fixed model). -/
theorem epoch_statistics {M ι : Type} (forward : M → ι → List ℚ)
    (criterion : List (List ℚ) → List ℕ → ℚ)
    (optStep : M → TorchBatch ι → M)
    (loader : List (TorchBatch ι)) (m0 : M)
    (hne : loader ≠ [])
    (hs : (loader.map (fun b => b.labels.length)).sum ≠ 0) :
    (train_epoch forward criterion optStep loader m0).2 =
      Except.ok
        (((epochTrace forward optStep loader m0).map
            (fun t => criterion t.1 t.2)).sum / (loader.length : ℚ),
          100 * (((epochTrace forward optStep loader m0).map
            (fun t => batchCorrect t.1 t.2)).sum : ℚ) /
            (((loader.map (fun b => b.labels.length)).sum : ℕ) : ℚ)) ∧
    (validate forward criterion loader m0).2 =
      Except.ok
        (((loader.map (fun b =>
            criterion (b.inputs.map (forward m0)) b.labels)).sum) /
            (loader.length : ℚ),
          100 * (((loader.map (fun b =>
            batchCorrect (b.inputs.map (forward m0)) b.labels)).sum : ℕ) : ℚ) /
            (((loader.map (fun b => b.labels.length)).sum : ℕ) : ℚ)) := by
  have hlen : ¬(loader.length = 0) := fun h0 => hne (List.length_eq_zero.mp h0)
  have htf := trainFold_spec forward criterion optStep loader ⟨m0, 0, 0, 0⟩
  have hvf := valFold_spec forward criterion loader ⟨m0, 0, 0, 0⟩
  have htrl : (loader.foldl (epochStep forward criterion optStep)
      ⟨m0, 0, 0, 0⟩).running_loss =
      ((epochTrace forward optStep loader m0).map
        (fun t => criterion t.1 t.2)).sum := by simpa using htf.1
  have htco : (loader.foldl (epochStep forward criterion optStep)
      ⟨m0, 0, 0, 0⟩).correct =
      ((epochTrace forward optStep loader m0).map
        (fun t => batchCorrect t.1 t.2)).sum := by simpa using htf.2.1
  have htto : (loader.foldl (epochStep forward criterion optStep)
      ⟨m0, 0, 0, 0⟩).total =
      (loader.map (fun b => b.labels.length)).sum := by simpa using htf.2.2
  have hvrl : (loader.foldl (valStep forward criterion)
      ⟨m0, 0, 0, 0⟩).running_loss =
      (loader.map (fun b =>
        criterion (b.inputs.map (forward m0)) b.labels)).sum := by
    simpa using hvf.2.1
  have hvco : (loader.foldl (valStep forward criterion)
      ⟨m0, 0, 0, 0⟩).correct =
      (loader.map (fun b =>
        batchCorrect (b.inputs.map (forward m0)) b.labels)).sum := by
    simpa using hvf.2.2.1
  have hvto : (loader.foldl (valStep forward criterion)
      ⟨m0, 0, 0, 0⟩).total =
      (loader.map (fun b => b.labels.length)).sum := by simpa using hvf.2.2.2
  constructor
  · rw [train_epoch_result, if_neg hlen, if_neg (htto ▸ hs), htrl, htco, htto]
  · rw [validate_result, if_neg hlen, if_neg (hvto ▸ hs), hvrl, hvco, hvto]

/-- A concrete one-batch loader for the witnesses below. -/
def demoLoader : List (TorchBatch ℕ) := [⟨[0], [0]⟩]

/-- A concrete stand-in forward function. -/
def demoForward : ℕ → ℕ → List ℚ := fun _ _ => [1, 0]

/-- A concrete stand-in loss criterion. -/
def demoCriterion : List (List ℚ) → List ℕ → ℚ := fun _ _ => 2

/-- A concrete stand-in optimizer step. -/
def demoOpt : ℕ → TorchBatch ℕ → ℕ := fun m _ => m + 1

unseal Rat.mul Rat.inv Rat.add Rat.sub in
/-- Witness for `epoch_statistics` on the one-batch demo loader. -/
theorem epoch_statistics_witness :
    demoLoader ≠ [] ∧
    (demoLoader.map (fun b => b.labels.length)).sum ≠ 0 ∧
    ((train_epoch demoForward demoCriterion demoOpt demoLoader 0).2 =
      Except.ok
        (((epochTrace demoForward demoOpt demoLoader 0).map
            (fun t => demoCriterion t.1 t.2)).sum / (demoLoader.length : ℚ),
          100 * (((epochTrace demoForward demoOpt demoLoader 0).map
            (fun t => batchCorrect t.1 t.2)).sum : ℚ) /
            (((demoLoader.map (fun b => b.labels.length)).sum : ℕ) : ℚ)) ∧
    (validate demoForward demoCriterion demoLoader 0).2 =
      Except.ok
        (((demoLoader.map (fun b =>
            demoCriterion (b.inputs.map (demoForward 0)) b.labels)).sum) /
            (demoLoader.length : ℚ),
          100 * (((demoLoader.map (fun b =>
            batchCorrect (b.inputs.map (demoForward 0)) b.labels)).sum : ℕ) : ℚ) /
            (((demoLoader.map (fun b => b.labels.length)).sum : ℕ) : ℚ))) :=
  ⟨by decide, by decide,
    epoch_statistics demoForward demoCriterion demoOpt demoLoader 0
      (by decide) (by decide)⟩

/-- C9: `train_epoch` and `validate` divide by the number of batches and
by the sample count with no guard; if the loader yields at least one
batch containing at least one sample, both divisions are well-defined
and both runners return a result instead of a `ZeroDivisionError`. -/
theorem epoch_div_safe {M ι : Type} (forward : M → ι → List ℚ)
    (criterion : List (List ℚ) → List ℕ → ℚ)
    (optStep : M → TorchBatch ι → M)
    (loader : List (TorchBatch ι)) (m0 : M)
    (h : ∃ b ∈ loader, b.labels ≠ []) :
    (∃ p, (train_epoch forward criterion optStep loader m0).2 = Except.ok p) ∧
    (∃ p, (validate forward criterion loader m0).2 = Except.ok p) := by
  obtain ⟨b, hb, hbl⟩ := h
  have hne : loader ≠ [] := by
    intro h0
    rw [h0] at hb
    cases hb
  have hlen : ¬(loader.length = 0) := fun h0 => hne (List.length_eq_zero.mp h0)
  have hsum : (loader.map (fun b => b.labels.length)).sum ≠ 0 := by
    have hmem : b.labels.length ∈ loader.map (fun b => b.labels.length) :=
      List.mem_map_of_mem _ hb
    have hle := List.single_le_sum
      (fun (x : ℕ) _ => Nat.zero_le x) _ hmem
    have hpos : b.labels.length ≠ 0 := fun h0 => hbl (List.length_eq_zero.mp h0)
    omega
  have htto : (loader.foldl (epochStep forward criterion optStep)
      ⟨m0, 0, 0, 0⟩).total =
      (loader.map (fun b => b.labels.length)).sum := by
    simpa using (trainFold_spec forward criterion optStep loader ⟨m0, 0, 0, 0⟩).2.2
  have hvto : (loader.foldl (valStep forward criterion)
      ⟨m0, 0, 0, 0⟩).total =
      (loader.map (fun b => b.labels.length)).sum := by
    simpa using (valFold_spec forward criterion loader ⟨m0, 0, 0, 0⟩).2.2.2
  constructor
  · rw [train_epoch_result, if_neg hlen, if_neg (htto ▸ hsum)]
    exact ⟨_, rfl⟩
  · rw [validate_result, if_neg hlen, if_neg (hvto ▸ hsum)]
    exact ⟨_, rfl⟩

/-- Witness for `epoch_div_safe` on the one-batch demo loader. -/
theorem epoch_div_safe_witness :
    (∃ b ∈ demoLoader, b.labels ≠ []) ∧
    ((∃ p, (train_epoch demoForward demoCriterion demoOpt demoLoader 0).2 =
        Except.ok p) ∧
      (∃ p, (validate demoForward demoCriterion demoLoader 0).2 =
        Except.ok p)) :=
  ⟨by decide,
    epoch_div_safe demoForward demoCriterion demoOpt demoLoader 0 (by decide)⟩

/-! ## `main.py`: `NaturalImagesDataset.__getitem__` (lines 54-72) -/

/-- `__getitem__`, with Python local-variable semantics made explicit.
The body is

```
try:
    image = Image.open(img_path).convert('RGB')
    label = self.labels[idx]
    if self.transform: image = self.transform(image)
    return image, label
except Exception as e:
    return torch.zeros((3, 224, 224)), label
```

`label` is assigned inside the `try` only after `Image.open(...).convert`
succeeded; the handler reads `label`, so on the open/convert failure path
it reads an unbound local (modelled as the `none` case), which in Python
raises `UnboundLocalError`.  `openConvert` and `transform` are the
external collaborators, `zeros` stands for `torch.zeros((3,224,224))`. -/
def getitem {Img T : Type} (openConvert : String → Except String Img)
    (transform : Img → Except String T) (zeros : T)
    (images : List String) (labels : List ℕ) (idx : ℕ) :
    Except PyError (T × ℕ) :=
  match openConvert (images.getD idx "") with
  | Except.error _ =>
      -- the handler runs with the local `label` never assigned
      match (none : Option ℕ) with
      | some l => Except.ok (zeros, l)
      | none => Except.error PyError.unboundLocalError
  | Except.ok img =>
      let label := labels.getD idx 0
      match transform img with
      | Except.error _ =>
          -- the handler runs with `label` bound: the documented fallback
          Except.ok (zeros, label)
      | Except.ok t => Except.ok (t, label)

/-- C8 (code bug): when opening/converting the image raises, the code's
own comment promises `(torch.zeros((3, 224, 224)), label)`, but
`__getitem__` instead raises `UnboundLocalError`, because `label` is
assigned after `Image.open` inside the `try`.  (The documented fallback
is only reached when `self.transform` is what raises.)  Evaluated here
at a one-image dataset whose opener fails. -/
theorem getitem_open_failure :
    getitem (fun _ => (Except.error "corrupt" : Except String Unit))
        (fun _ => (Except.ok 7 : Except String ℕ)) 0 ["bad.jpg"] [5] 0 =
      Except.error PyError.unboundLocalError ∧
    (Except.error PyError.unboundLocalError : Except PyError (ℕ × ℕ)) ≠
      Except.ok (0, 5) ∧
    getitem (fun _ => (Except.ok () : Except String Unit))
        (fun _ => (Except.error "augment failed" : Except String ℕ)) 0
        ["bad.jpg"] [5] 0 =
      Except.ok (0, 5) := by
  refine ⟨rfl, ?_, rfl⟩
  intro h
  cases h

/-! ## `main.py`: the model head and the order of the pipeline
(`CustomResNet`, lines 74-97, and `main`, lines 238-362) -/

/-- A layer of the replacement classification head. -/
inductive Layer : Type
  | linear (inFeatures outFeatures : ℕ)
  | relu
  | dropout (p : ℚ)
deriving DecidableEq

/-- `self.resnet.fc.in_features` of the pretrained torchvision ResNet18
(`main.py` line 87), an external library constant: 512. -/
def resnet18_fc_in_features : ℕ := 512

/-- The replacement head `CustomResNet.__init__` installs (`main.py`
lines 88-93): `Sequential(Linear(num_features, 512), ReLU(),
Dropout(0.5), Linear(512, num_classes))`. -/
def customResNetHead (num_classes : ℕ) : List Layer :=
  [Layer.linear resnet18_fc_in_features 512, Layer.relu,
    Layer.dropout (1 / 2), Layer.linear 512 num_classes]

/-- `num_epochs = 10` (`main.py` line 245). -/
def num_epochs : ℕ := 10

/-- The externally visible milestones of `main`, in order. -/
inductive PipelineEvent : Type
  | buildModel (head : List Layer)
  | trainEpochRun (epoch : ℕ)
  | validateRun (epoch : ℕ)
  | appendMetrics (epoch : ℕ)
  | plotCurves
  | testEvaluate
deriving DecidableEq

/-- The order of the pipeline of `main` (`main.py` lines 291-360):
construct the model, then for each epoch run one training epoch, one
validation pass and append the four metrics to the curve lists, and
after the loop plot the curves and evaluate on the test set.  (The
prints, timers and best-model checkpointing between these milestones are
omitted from the trace.) -/
def mainTrace (num_classes : ℕ) : List PipelineEvent :=
  PipelineEvent.buildModel (customResNetHead num_classes) ::
    ((List.range num_epochs).flatMap (fun e =>
      [PipelineEvent.trainEpochRun e, PipelineEvent.validateRun e,
        PipelineEvent.appendMetrics e])) ++
    [PipelineEvent.plotCurves, PipelineEvent.testEvaluate]

/-- C5: the pipeline executes in the stated order: position 0 builds the
model, whose head is Linear-to-512, ReLU, Dropout, Linear-to-classes;
epoch `e` occupies positions `1 + 3e` (train), `2 + 3e` (validate),
`3 + 3e` (append metrics); plotting comes only after the whole loop, and
the test-set evaluation after plotting. -/
theorem main_pipeline_order (num_classes e : ℕ) (he : e < num_epochs) :
    (mainTrace num_classes).get? 0 =
      some (PipelineEvent.buildModel (customResNetHead num_classes)) ∧
    (∃ inF, customResNetHead num_classes =
      [Layer.linear inF 512, Layer.relu, Layer.dropout (1 / 2),
        Layer.linear 512 num_classes]) ∧
    (mainTrace num_classes).get? (1 + 3 * e) =
      some (PipelineEvent.trainEpochRun e) ∧
    (mainTrace num_classes).get? (2 + 3 * e) =
      some (PipelineEvent.validateRun e) ∧
    (mainTrace num_classes).get? (3 + 3 * e) =
      some (PipelineEvent.appendMetrics e) ∧
    (mainTrace num_classes).get? (1 + 3 * num_epochs) =
      some PipelineEvent.plotCurves ∧
    (mainTrace num_classes).get? (2 + 3 * num_epochs) =
      some PipelineEvent.testEvaluate ∧
    (mainTrace num_classes).length = 3 * num_epochs + 3 := by
  have h10 : e < 10 := he
  interval_cases e <;>
    exact ⟨rfl, ⟨resnet18_fc_in_features, rfl⟩, rfl, rfl, rfl, rfl, rfl, rfl⟩

/-- Witness for `main_pipeline_order` at 8 classes, epoch 0. -/
theorem main_pipeline_order_witness :
    0 < num_epochs ∧
    ((mainTrace 8).get? 0 = some (PipelineEvent.buildModel (customResNetHead 8)) ∧
    (∃ inF, customResNetHead 8 =
      [Layer.linear inF 512, Layer.relu, Layer.dropout (1 / 2),
        Layer.linear 512 8]) ∧
    (mainTrace 8).get? (1 + 3 * 0) = some (PipelineEvent.trainEpochRun 0) ∧
    (mainTrace 8).get? (2 + 3 * 0) = some (PipelineEvent.validateRun 0) ∧
    (mainTrace 8).get? (3 + 3 * 0) = some (PipelineEvent.appendMetrics 0) ∧
    (mainTrace 8).get? (1 + 3 * num_epochs) = some PipelineEvent.plotCurves ∧
    (mainTrace 8).get? (2 + 3 * num_epochs) = some PipelineEvent.testEvaluate ∧
    (mainTrace 8).length = 3 * num_epochs + 3) :=
  ⟨by decide, main_pipeline_order 8 0 (by decide)⟩

end NaturalImages
